import Mathlib

/-!
# Verification of the bgms MCMC core against its specification

This file shallowly embeds the parts of the bgms C++ source that the
specification's claims are about, and proves or refutes each claim.

Conventions of the embedding:
* C++ `double` values are modelled as real numbers (`ℝ`); where a claim is
  about NaN behaviour the value is modelled as `Option ℝ` with `none`
  standing for NaN (IEEE comparisons with NaN are false, and arithmetic on
  NaN propagates it, which the `Option` model reproduces).
* `arma::vec` / `arma::mat` objects are modelled as functions `ℕ → ℝ` /
  `ℕ → ℕ → ℝ` together with explicit dimensions; flat column-major buffers
  (as handed to the C routine `chol_up`) are modelled as `ℕ → ℝ` with
  index `n * j + i` for entry (i, j).
* Random draws consumed from the per-chain RNG are explicit arguments of
  the embedded operations (a stream or a single draw per call site), so an
  embedded operation is a deterministic function of state and draws.
* Integer-valued quantities (`int`, `arma::imat`) are modelled as `ℤ`, or
  as `ℕ` where the source guarantees non-negativity.
-/

open Finset

/-- Functional update of a flat buffer at one index. -/
def updf (f : ℕ → ℝ) (k : ℕ) (v : ℝ) : ℕ → ℝ :=
  fun m => if m = k then v else f m

/-- Functional update of a matrix (two-index function) at one entry. -/
def upd2 (M : ℕ → ℕ → ℝ) (a b : ℕ) (v : ℝ) : ℕ → ℕ → ℝ :=
  fun x y => if x = a ∧ y = b then v else M x y

theorem updf_same (f : ℕ → ℝ) (k : ℕ) (v : ℝ) : updf f k v k = v := by
  simp [updf]

theorem updf_other (f : ℕ → ℝ) (k m : ℕ) (v : ℝ) (h : m ≠ k) : updf f k v m = f m := by
  simp [updf, h]

theorem upd2_same (M : ℕ → ℕ → ℝ) (a b : ℕ) (v : ℝ) : upd2 M a b v a b = v := by
  simp [upd2]

theorem upd2_other (M : ℕ → ℕ → ℝ) (a b x y : ℕ) (v : ℝ) (h : ¬(x = a ∧ y = b)) :
    upd2 M a b v x y = M x y := by
  simp only [upd2, if_neg h]

/-!
## Robbins-Monro proposal-SD update (src/src/mcmc/mcmc_utils.h, lines 64-86)

`double` values are modelled as `Option ℝ`, `none` standing for NaN:
* `observed_log_acceptance_probability < 0.0` is false when the argument is
  NaN, so `observed_acceptance_probability` keeps its initial value 1.0;
* the arithmetic `current_sd + (observed - target) * rm_weight` is NaN as
  soon as one operand is NaN;
* `std::isnan` detects exactly the `none` case;
* `std::clamp(v, lo, hi)` is `v < lo ? lo : (hi < v ? hi : v)`.
-/

/-- Embedding of `update_proposal_sd_with_robbins_monro` from
`src/src/mcmc/mcmc_utils.h`.  `none` models a NaN double. -/
noncomputable def update_proposal_sd_with_robbins_monro
    (current_sd observed_log_acceptance_probability rm_weight target_acceptance :
      Option ℝ) : Option ℝ :=
  -- double observed_acceptance_probability = 1.0;
  -- if (observed_log_acceptance_probability < 0.0) { ... = MY_EXP(...); }
  let observed : Option ℝ :=
    match observed_log_acceptance_probability with
    | some l => some (if l < 0 then Real.exp l else 1)
    | none => some 1
  -- double updated_sd = current_sd + (observed - target) * rm_weight;
  let updated : Option ℝ :=
    match current_sd, observed, target_acceptance, rm_weight with
    | some s, some o, some t, some w => some (s + (o - t) * w)
    | _, _, _, _ => none
  -- if (std::isnan(updated_sd)) { updated_sd = 1.0; }
  let updated : Option ℝ := if updated.isNone then some (1 : ℝ) else updated
  -- return std::clamp(updated_sd, 0.001, 2.0);
  match updated with
  | some v => some (if v < 0.001 then 0.001 else if 2 < v then 2 else v)
  | none => none

/-- Real-valued wrapper used by callers that pass ordinary (non-NaN)
doubles; the update never returns NaN, so the default is never used. -/
noncomputable def rmUpdate (current_sd obs_log_ap rm_weight target : ℝ) : ℝ :=
  (update_proposal_sd_with_robbins_monro
    (some current_sd) (some obs_log_ap) (some rm_weight) (some target)).getD 1

/-!
## RWMAdaptationController (src/src/mcmc/adaptation.h, lines 220-257)
-/

/-- The fields of `RWMAdaptationController` that its `update` method reads
(the proposal-SD matrix itself is passed explicitly, since in the source it
is a reference the controller mutates). -/
structure RWMAdaptationController where
  total_warmup : ℤ
  target_accept : ℝ

/-- Embedding of `RWMAdaptationController::update`: returns the new
proposal-SD matrix.  `n_rows`/`n_cols` are the dimensions of the
`proposal_sd` matrix; entries outside them do not exist in the source and
are returned unchanged here. -/
noncomputable def RWMAdaptationController.update (ctrl : RWMAdaptationController)
    (n_rows n_cols : ℕ) (proposal_sd : ℕ → ℕ → ℝ)
    (index_mask : ℕ → ℕ → ℕ) (accept_prob_matrix : ℕ → ℕ → ℝ)
    (iteration : ℤ) : ℕ → ℕ → ℝ :=
  -- if (iteration >= total_warmup || iteration < 1) return;
  if ctrl.total_warmup ≤ iteration ∨ iteration < 1 then proposal_sd
  else
    -- const double rm_weight = std::pow(iteration, -0.75);
    let rm_weight : ℝ := (iteration : ℝ) ^ (-(0.75 : ℝ))
    fun i j =>
      if i < n_rows ∧ j < n_cols ∧ index_mask i j = 1 then
        rmUpdate (proposal_sd i j) (Real.log (accept_prob_matrix i j))
          rm_weight ctrl.target_accept
      else proposal_sd i j

/-!
## Warmup schedule (src/src/mcmc/warmup_schedule.h)

`static_cast<int>(0.85 * warmup)` etc. are modelled as natural-number
division (`85 * warmup / 100`, `warmup / 10`, ...).  For every `int`-range
warmup value the C++ double computation rounds to exactly these floors:
the relative error of the two roundings is below 2⁻⁵³ + 2⁻⁵⁴, far smaller
than the 1/20 (resp. 1/10) gap between distinct values of the exact
product, and when the exact product is an integer the rounded product is
that integer.
-/

structure WarmupSchedule where
  stage1_end : ℕ
  window_ends : List ℕ
  stage3a_start : ℕ
  stage3b_start : ℕ
  stage3c_start : ℕ
  total_warmup : ℕ
  learn_proposal_sd : Bool
  enable_selection : Bool
  warning_type : ℕ
  stage3b_skipped : Bool

/-- The Stage-2 window construction loop of the `WarmupSchedule`
constructor.  `fuel` bounds the recursion; `cur` advances by at least one
per iteration, so `fuel = stage3a_start` suffices. -/
def windowLoop : ℕ → ℕ → ℕ → ℕ → List ℕ
  | 0, _, _, _ => []
  | fuel + 1, cur, wsize, s3a =>
    if cur < s3a then
      let win := min wsize (s3a - cur)
      let cur' := cur + win
      let wsize' := min (wsize * 2) (s3a - cur')
      (cur + win) :: windowLoop fuel cur' wsize' s3a
    else []

/-- Embedding of the `WarmupSchedule` constructor. -/
def warmupSchedule (warmup : ℕ) (enable_sel learn_sd : Bool) : WarmupSchedule :=
  -- ===== Step 1: Determine budget allocation =====
  let alloc : ℕ × ℕ × Bool × ℕ :=   -- (warmup_core, stage3b_budget, skipped, warning)
    if enable_sel ∧ learn_sd then
      let warmup_core := 85 * warmup / 100
      let stage3b_budget := warmup / 10
      if stage3b_budget < 20 then (warmup, 0, true, 4)
      else if warmup < 300 then (warmup_core, stage3b_budget, false, 3)
      else (warmup_core, stage3b_budget, false, 0)
    else (warmup, 0, false, 0)
  let warmup_core := alloc.1
  let stage3b_budget := alloc.2.1
  let skipped := alloc.2.2.1
  let warning := alloc.2.2.2
  -- ===== Step 2: Set up core stages (1, 2, 3a) =====
  let bufs : ℕ × ℕ × ℕ × ℕ :=      -- (init_buffer, term_buffer, base_window, warning)
    if warmup_core < 20 then
      (warmup_core, 0, 0, if warning = 0 then 1 else warning)
    else if warmup_core < 75 + 25 + 50 then
      let ib := 15 * warmup_core / 100
      let tb := 10 * warmup_core / 100
      (ib, tb, warmup_core - ib - tb, if warning = 0 then 2 else warning)
    else (75, 50, 25, warning)
  let init_buffer := bufs.1
  let term_buffer := bufs.2.1
  let base_window := bufs.2.2.1
  let warning := bufs.2.2.2
  let warning := if enable_sel ∧ warmup < 50 ∧ warning ≠ 1 then 1 else warning
  let stage1_end := init_buffer
  let stage3a_start := warmup_core - term_buffer
  let window_ends :=
    if 0 < base_window ∧ stage1_end < stage3a_start then
      windowLoop stage3a_start stage1_end base_window stage3a_start
    else []
  { stage1_end := stage1_end
    window_ends := window_ends
    stage3a_start := stage3a_start
    stage3b_start := warmup_core
    stage3c_start := warmup_core + stage3b_budget
    total_warmup := warmup
    learn_proposal_sd := learn_sd
    enable_selection := enable_sel
    warning_type := warning
    stage3b_skipped := skipped }

/-!
## Claim theorems for the adaptation primitives and the warmup schedule
-/

/-- `std::clamp` on reals agrees with `max lo (min hi v)`. -/
theorem std_clamp_eq (v lo hi : ℝ) (h : lo ≤ hi) :
    (if v < lo then lo else if hi < v then hi else v) = max lo (min hi v) := by
  split_ifs with h1 h2
  · rw [min_eq_right (h1.le.trans h), max_eq_left h1.le]
  · rw [min_eq_left h2.le, max_eq_right h]
  · rw [min_eq_right (not_lt.mp h2), max_eq_right (not_lt.mp h1)]

/-- C9: `update_proposal_sd_with_robbins_monro` returns
`clamp(sd + (min(1, exp ℓ) − target)·w, 10⁻³, 2)` for real inputs, resets a
NaN intermediate to 1 before clamping, and its output always lies in
[10⁻³, 2]. -/
theorem update_proposal_sd_robbins_monro_spec :
    (∀ s l w t : ℝ,
      update_proposal_sd_with_robbins_monro (some s) (some l) (some w) (some t)
        = some (max 0.001 (min 2 (s + (min 1 (Real.exp l) - t) * w)))) ∧
    (∀ a b c d : Option ℝ, ∃ r : ℝ,
      update_proposal_sd_with_robbins_monro a b c d = some r ∧
        0.001 ≤ r ∧ r ≤ 2) := by
  have hobs : ∀ l : ℝ, (if l < 0 then Real.exp l else 1) = min 1 (Real.exp l) := by
    intro l
    rcases lt_or_le l 0 with h | h
    · rw [if_pos h, min_eq_right (Real.exp_lt_one_iff.mpr h).le]
    · rw [if_neg (not_lt.mpr h), min_eq_left (Real.one_le_exp h)]
  constructor
  · intro s l w t
    show some (if (s + ((if l < 0 then Real.exp l else 1) - t) * w) < 0.001 then (0.001 : ℝ)
          else if 2 < (s + ((if l < 0 then Real.exp l else 1) - t) * w) then 2
          else (s + ((if l < 0 then Real.exp l else 1) - t) * w)) = _
    rw [hobs l]
    exact congrArg some (std_clamp_eq _ _ _ (by norm_num))
  · intro a b c d
    have hclamp : ∀ v : ℝ,
        0.001 ≤ (if v < 0.001 then (0.001 : ℝ) else if 2 < v then 2 else v) ∧
        (if v < 0.001 then (0.001 : ℝ) else if 2 < v then 2 else v) ≤ 2 := by
      intro v
      split_ifs with h1 h2 <;> constructor <;> linarith
    cases a <;> cases b <;> cases c <;> cases d <;>
      exact ⟨_, rfl, (hclamp _).1, (hclamp _).2⟩

/-- C10: `RWMAdaptationController::update` is the identity outside the
warmup window (`iteration < 1` or `iteration ≥ total_warmup`), and inside
it leaves every entry whose `index_mask` entry is not 1 (and every entry
outside the matrix) unchanged. -/
theorem RWMAdaptationController_update_frame (ctrl : RWMAdaptationController)
    (n_rows n_cols : ℕ) (proposal_sd : ℕ → ℕ → ℝ)
    (index_mask : ℕ → ℕ → ℕ) (accept_prob_matrix : ℕ → ℕ → ℝ)
    (iteration : ℤ) :
    ((iteration < 1 ∨ ctrl.total_warmup ≤ iteration) →
      ctrl.update n_rows n_cols proposal_sd index_mask accept_prob_matrix iteration
        = proposal_sd) ∧
    (∀ i j, ¬(i < n_rows ∧ j < n_cols ∧ index_mask i j = 1) →
      ctrl.update n_rows n_cols proposal_sd index_mask accept_prob_matrix iteration i j
        = proposal_sd i j) := by
  constructor
  · intro h
    rw [RWMAdaptationController.update, if_pos h.symm]
  · intro i j h
    rw [RWMAdaptationController.update]
    split_ifs with h1
    · rfl
    · simp only [if_neg h]

/-- Witness for C10 at a concrete input: with `total_warmup = 5`, iteration
7 is past warmup and the proposal-SD matrix is returned unchanged; inside
warmup (iteration 3) a masked-out entry is unchanged as well. -/
theorem RWMAdaptationController_update_frame_witness :
    RWMAdaptationController.update ⟨5, 0.44⟩ 1 1 (fun _ _ => 1)
        (fun _ _ => 0) (fun _ _ => 1) 7 = (fun _ _ => 1) ∧
    RWMAdaptationController.update ⟨5, 0.44⟩ 1 1 (fun _ _ => 1)
        (fun _ _ => 0) (fun _ _ => 1) 3 0 0 = 1 :=
  ⟨(RWMAdaptationController_update_frame ⟨5, 0.44⟩ 1 1 (fun _ _ => 1)
      (fun _ _ => 0) (fun _ _ => 1) 7).1 (Or.inr (by norm_num)),
   (RWMAdaptationController_update_frame ⟨5, 0.44⟩ 1 1 (fun _ _ => 1)
      (fun _ _ => 0) (fun _ _ => 1) 3).2 0 0 (by norm_num)⟩

/-- C7: the warmup schedule splits W as 85%/10%/5% when selection and
proposal-SD learning are both enabled and `⌊0.10·W⌋ ≥ 20`; with either
flag off all of W is budgeted to the core stages; Stage 3b is skipped
(all of W to the core stages) exactly when `⌊0.10·W⌋ < 20`. -/
theorem warmupSchedule_split (W : ℕ) :
    (∀ es ls : Bool, (es = false ∨ ls = false) →
      (warmupSchedule W es ls).stage3b_start = W ∧
      (warmupSchedule W es ls).stage3c_start = W ∧
      (warmupSchedule W es ls).total_warmup = W ∧
      (warmupSchedule W es ls).stage3b_skipped = false) ∧
    (20 ≤ W / 10 →
      (warmupSchedule W true true).stage3b_start = 85 * W / 100 ∧
      (warmupSchedule W true true).stage3c_start = 85 * W / 100 + W / 10 ∧
      (warmupSchedule W true true).total_warmup = W ∧
      (warmupSchedule W true true).stage3b_skipped = false) ∧
    (W / 10 < 20 →
      (warmupSchedule W true true).stage3b_skipped = true ∧
      (warmupSchedule W true true).stage3b_start = W ∧
      (warmupSchedule W true true).stage3c_start = W) := by
  refine ⟨?_, ?_, ?_⟩
  · intro es ls h
    have hflag : ¬(es = true ∧ ls = true) := by
      rcases h with h | h <;> simp [h]
    simp only [warmupSchedule]
    rcases Bool.eq_false_or_eq_true es with he | he <;>
      rcases Bool.eq_false_or_eq_true ls with hl | hl <;>
        simp_all
  · intro h
    have h20 : ¬(W / 10 < 20) := not_lt.mpr h
    simp only [warmupSchedule]
    split_ifs <;> simp_all
  · intro h
    simp only [warmupSchedule]
    split_ifs <;> simp_all

/-- Witness for C7 at W = 1000 with both flags on: the schedule has
`stage3b_start = 850`, `stage3c_start = 950`, `total_warmup = 1000`, and
Stage 3b is not skipped; with learn_sd off, everything is core. -/
theorem warmupSchedule_split_witness :
    ((warmupSchedule 1000 true true).stage3b_start = 850 ∧
     (warmupSchedule 1000 true true).stage3c_start = 950 ∧
     (warmupSchedule 1000 true true).total_warmup = 1000 ∧
     (warmupSchedule 1000 true true).stage3b_skipped = false) ∧
    (warmupSchedule 1000 true false).stage3b_start = 1000 := by
  have h1 := (warmupSchedule_split 1000).2.1 (by norm_num)
  have h2 := ((warmupSchedule_split 1000).1 true false (Or.inr rfl)).1
  refine ⟨?_, h2⟩
  have e1 : 85 * 1000 / 100 = 850 := by norm_num
  have e2 : 85 * 1000 / 100 + 1000 / 10 = 950 := by norm_num
  exact ⟨e1 ▸ h1.1, e2 ▸ h1.2.1, h1.2.2.1, h1.2.2.2⟩

/-!
## Leapfrog integrator and step-size heuristic
(src/src/mcmc/mcmc_leapfrog.cpp, src/src/mcmc/mcmc_utils.cpp)

Parameter vectors are functions `ι → ℝ` for a finite index type `ι`; the
RNG is a stream `normals : ℕ → ι → ℝ` of standard-normal draw vectors, one
per `arma_rnorm_vec` call.
-/

/-- Return record of `leapfrog` (struct LeapfrogJointResult). -/
structure LeapfrogJointResult (ι : Type) where
  theta : ι → ℝ
  r : ι → ℝ
  log_post : ℝ
  grad : ι → ℝ

/-- Embedding of `leapfrog` from `src/src/mcmc/mcmc_leapfrog.cpp`. -/
def leapfrog {ι : Type} (theta_init r_init : ι → ℝ) (eps : ℝ)
    (grad : (ι → ℝ) → ι → ℝ) (joint : (ι → ℝ) → ℝ × (ι → ℝ))
    (num_leapfrogs : ℕ) (inv_mass_diag : ι → ℝ)
    (init_grad : Option (ι → ℝ)) : LeapfrogJointResult ι :=
  -- arma::vec grad_theta = init_grad ? *init_grad : grad(theta_init);
  let g0 := match init_grad with
    | some g => g
    | none => grad theta_init
  -- all steps except the last one
  let st := (List.range (num_leapfrogs - 1)).foldl
    (fun (s : (ι → ℝ) × (ι → ℝ) × (ι → ℝ)) _ =>
      let theta := s.1
      let r := s.2.1
      let gr := s.2.2
      let r1 := fun k => r k + 0.5 * eps * gr k
      let theta1 := fun k => theta k + eps * (inv_mass_diag k * r1 k)
      let gr1 := grad theta1
      let r2 := fun k => r1 k + 0.5 * eps * gr1 k
      (theta1, r2, gr1))
    (theta_init, r_init, g0)
  if 1 ≤ num_leapfrogs then
    -- final step: use joint to get both log_post and gradient
    let theta := st.1
    let r := st.2.1
    let gr := st.2.2
    let r1 := fun k => r k + 0.5 * eps * gr k
    let theta1 := fun k => theta k + eps * (inv_mass_diag k * r1 k)
    let jt := joint theta1
    let r2 := fun k => r1 k + 0.5 * eps * jt.2 k
    ⟨theta1, r2, jt.1, jt.2⟩
  else
    -- edge case: num_leapfrogs == 0
    let jt := joint theta_init
    ⟨theta_init, r_init, jt.1, jt.2⟩

/-- Embedding of `kinetic_energy` (0.5 · rᵀ M⁻¹ r with diagonal M⁻¹). -/
def kinetic_energy {ι : Type} [Fintype ι] (r inv_mass_diag : ι → ℝ) : ℝ :=
  0.5 * ∑ k, (r k * inv_mass_diag k) * r k

/-- The doubling/halving loop of `heuristic_initial_step_size`.  `fuel` is
`max_attempts - attempts`; `delta` is the current `H1 - H0`. -/
noncomputable def heuristicLoop {ι : Type} [Fintype ι]
    (theta : ι → ℝ) (grad : (ι → ℝ) → ι → ℝ) (joint : (ι → ℝ) → ℝ × (ι → ℝ))
    (inv_mass_diag : ι → ℝ) (normals : ℕ → ι → ℝ) (logp0 : ℝ) (grad0 : ι → ℝ)
    (direction : ℤ) : ℕ → ℕ → ℝ → ℝ → ℝ
  | 0, _, eps, _ => eps
  | fuel + 1, attempt, eps, delta =>
    -- while (direction * (H1 - H0) > -direction * MY_LOG(2.0) && attempts < max)
    if (direction : ℝ) * delta > -(direction : ℝ) * Real.log 2 then
      let eps' := if direction = 1 then 2 * eps else 0.5 * eps
      -- resample momentum, recompute H0 and H1 after one leapfrog step
      let r := fun i => Real.sqrt (1 / inv_mass_diag i) * normals (attempt + 1) i
      let H0 := logp0 - kinetic_energy r inv_mass_diag
      let result := leapfrog theta r eps' grad joint 1 inv_mass_diag (some grad0)
      let H1 := result.log_post - kinetic_energy result.r inv_mass_diag
      heuristicLoop theta grad joint inv_mass_diag normals logp0 grad0 direction
        fuel (attempt + 1) eps' (H1 - H0)
    else eps

/-- Embedding of `heuristic_initial_step_size` (mass-matrix overload) from
`src/src/mcmc/mcmc_utils.cpp`.  Note that the body never reads
`target_acceptance`; the argument is kept for fidelity to the source
signature. -/
noncomputable def heuristic_initial_step_size {ι : Type} [Fintype ι]
    (theta : ι → ℝ) (grad : (ι → ℝ) → ι → ℝ) (joint : (ι → ℝ) → ℝ × (ι → ℝ))
    (inv_mass_diag : ι → ℝ) (normals : ℕ → ι → ℝ)
    (target_acceptance init_step : ℝ) (max_attempts : ℕ) : ℝ :=
  let eps := init_step
  let jt := joint theta
  let logp0 := jt.1
  let grad0 := jt.2
  let r := fun i => Real.sqrt (1 / inv_mass_diag i) * normals 0 i
  let kin0 := kinetic_energy r inv_mass_diag
  let H0 := logp0 - kin0
  let result := leapfrog theta r eps grad joint 1 inv_mass_diag (some grad0)
  let kin1 := kinetic_energy result.r inv_mass_diag
  let H1 := result.log_post - kin1
  -- int direction = 2 * (H1 - H0 > MY_LOG(0.5)) - 1;
  let direction : ℤ := if H1 - H0 > Real.log 0.5 then 1 else -1
  heuristicLoop theta grad joint inv_mass_diag normals logp0 grad0 direction
    max_attempts 0 eps (H1 - H0)

/-- The loop of the step-size search as the CLAIM words it: double while the
one-step acceptance probability is above `target_acceptance`, halve while it
is below, stop at the first reversal.  `d = true` is the doubling direction. -/
noncomputable def heuristicClaimLoop {ι : Type} [Fintype ι]
    (theta : ι → ℝ) (grad : (ι → ℝ) → ι → ℝ) (joint : (ι → ℝ) → ℝ × (ι → ℝ))
    (inv_mass_diag : ι → ℝ) (normals : ℕ → ι → ℝ) (logp0 : ℝ) (grad0 : ι → ℝ)
    (target_acceptance : ℝ) (d : Bool) : ℕ → ℕ → ℝ → ℝ → ℝ
  | 0, _, eps, _ => eps
  | fuel + 1, attempt, eps, delta =>
    let accept := min 1 (Real.exp delta)
    if (if d then accept > target_acceptance else accept < target_acceptance) then
      let eps' := if d then 2 * eps else 0.5 * eps
      let r := fun i => Real.sqrt (1 / inv_mass_diag i) * normals (attempt + 1) i
      let H0 := logp0 - kinetic_energy r inv_mass_diag
      let result := leapfrog theta r eps' grad joint 1 inv_mass_diag (some grad0)
      let H1 := result.log_post - kinetic_energy result.r inv_mass_diag
      heuristicClaimLoop theta grad joint inv_mass_diag normals logp0 grad0
        target_acceptance d fuel (attempt + 1) eps' (H1 - H0)
    else eps

/-- The step-size heuristic as CLAIM C3 describes it (comparison
definition, following the claim's words): starting from ε, take one
leapfrog step; double ε when the resulting acceptance probability exceeds
the target-acceptance argument, halve it otherwise, until the first
reversal or the attempt cap. -/
noncomputable def heuristic_initial_step_size_claimed {ι : Type} [Fintype ι]
    (theta : ι → ℝ) (grad : (ι → ℝ) → ι → ℝ) (joint : (ι → ℝ) → ℝ × (ι → ℝ))
    (inv_mass_diag : ι → ℝ) (normals : ℕ → ι → ℝ)
    (target_acceptance init_step : ℝ) (max_attempts : ℕ) : ℝ :=
  let eps := init_step
  let jt := joint theta
  let logp0 := jt.1
  let grad0 := jt.2
  let r := fun i => Real.sqrt (1 / inv_mass_diag i) * normals 0 i
  let kin0 := kinetic_energy r inv_mass_diag
  let H0 := logp0 - kin0
  let result := leapfrog theta r eps grad joint 1 inv_mass_diag (some grad0)
  let kin1 := kinetic_energy result.r inv_mass_diag
  let H1 := result.log_post - kin1
  let d : Bool := min 1 (Real.exp (H1 - H0)) > target_acceptance
  heuristicClaimLoop theta grad joint inv_mass_diag normals logp0 grad0
    target_acceptance d max_attempts 0 eps (H1 - H0)

/-- One-step acceptance probability above ½ is the same as the energy
change being above log ½ (= −log 2). -/
theorem min_exp_gt_half_iff (delta : ℝ) :
    min 1 (Real.exp delta) > 1 / 2 ↔ delta > -Real.log 2 := by
  have hhalf : -Real.log 2 = Real.log (1 / 2) := by
    rw [show (1 / 2 : ℝ) = 2⁻¹ by norm_num, Real.log_inv]
  rw [gt_iff_lt, lt_min_iff, gt_iff_lt, hhalf,
    Real.log_lt_iff_lt_exp (by norm_num : (0 : ℝ) < 1 / 2)]
  exact ⟨fun h => h.2, fun h => ⟨by norm_num, h⟩⟩

/-- One-step acceptance probability below ½ is the same as the energy
change being below log ½. -/
theorem min_exp_lt_half_iff (delta : ℝ) :
    min 1 (Real.exp delta) < 1 / 2 ↔ delta < -Real.log 2 := by
  have hhalf : -Real.log 2 = Real.log (1 / 2) := by
    rw [show (1 / 2 : ℝ) = 2⁻¹ by norm_num, Real.log_inv]
  rw [min_lt_iff, hhalf, Real.lt_log_iff_exp_lt (by norm_num : (0 : ℝ) < 1 / 2)]
  constructor
  · rintro (h | h)
    · norm_num at h
    · exact h
  · exact fun h => Or.inr h

/-- The source loop with direction +1 equals the claimed process at
threshold ½ in the doubling direction. -/
theorem heuristicLoop_eq_claim_double {ι : Type} [Fintype ι]
    (theta : ι → ℝ) (grad : (ι → ℝ) → ι → ℝ) (joint : (ι → ℝ) → ℝ × (ι → ℝ))
    (inv_mass_diag : ι → ℝ) (normals : ℕ → ι → ℝ) (logp0 : ℝ) (grad0 : ι → ℝ) :
    ∀ fuel attempt eps delta,
      heuristicLoop theta grad joint inv_mass_diag normals logp0 grad0
          1 fuel attempt eps delta
        = heuristicClaimLoop theta grad joint inv_mass_diag normals logp0 grad0
            (1 / 2) true fuel attempt eps delta := by
  intro fuel
  induction fuel with
  | zero => intro attempt eps delta; rfl
  | succ n ih =>
    intro attempt eps delta
    have hcond : (((1 : ℤ) : ℝ) * delta > -((1 : ℤ) : ℝ) * Real.log 2)
        ↔ (min 1 (Real.exp delta) > 1 / 2) := by
      rw [min_exp_gt_half_iff]
      push_cast
      constructor <;> intro h <;> linarith
    simp only [heuristicLoop, heuristicClaimLoop, hcond]
    split_ifs with h
    · exact ih _ _ _
    · rfl

/-- The source loop with direction −1 equals the claimed process at
threshold ½ in the halving direction. -/
theorem heuristicLoop_eq_claim_halve {ι : Type} [Fintype ι]
    (theta : ι → ℝ) (grad : (ι → ℝ) → ι → ℝ) (joint : (ι → ℝ) → ℝ × (ι → ℝ))
    (inv_mass_diag : ι → ℝ) (normals : ℕ → ι → ℝ) (logp0 : ℝ) (grad0 : ι → ℝ) :
    ∀ fuel attempt eps delta,
      heuristicLoop theta grad joint inv_mass_diag normals logp0 grad0
          (-1) fuel attempt eps delta
        = heuristicClaimLoop theta grad joint inv_mass_diag normals logp0 grad0
            (1 / 2) false fuel attempt eps delta := by
  intro fuel
  induction fuel with
  | zero => intro attempt eps delta; rfl
  | succ n ih =>
    intro attempt eps delta
    have hcond : (((-1 : ℤ) : ℝ) * delta > -((-1 : ℤ) : ℝ) * Real.log 2)
        ↔ (min 1 (Real.exp delta) < 1 / 2) := by
      rw [min_exp_lt_half_iff]
      push_cast
      constructor <;> intro h <;> linarith
    simp only [heuristicLoop, heuristicClaimLoop, hcond]
    norm_num
    split_ifs with h
    · exact ih _ _ _
    · rfl

/-- Amended C3: `heuristic_initial_step_size` carries out the claimed
doubling/halving search, but against the fixed acceptance threshold ½
(the energy change is compared with log ½), and the `target_acceptance`
argument is never consulted: for every input the source routine equals the
claimed process run with target ½. -/
theorem heuristic_initial_step_size_uses_half {ι : Type} [Fintype ι]
    (theta : ι → ℝ) (grad : (ι → ℝ) → ι → ℝ) (joint : (ι → ℝ) → ℝ × (ι → ℝ))
    (inv_mass_diag : ι → ℝ) (normals : ℕ → ι → ℝ)
    (target_acceptance init_step : ℝ) (max_attempts : ℕ) :
    heuristic_initial_step_size theta grad joint inv_mass_diag normals
        target_acceptance init_step max_attempts
      = heuristic_initial_step_size_claimed theta grad joint inv_mass_diag normals
          (1 / 2) init_step max_attempts := by
  simp only [heuristic_initial_step_size, heuristic_initial_step_size_claimed]
  set delta := (leapfrog theta
      (fun i => Real.sqrt (1 / inv_mass_diag i) * normals 0 i) init_step grad joint 1
      inv_mass_diag (some (joint theta).2)).log_post
    - kinetic_energy (leapfrog theta
        (fun i => Real.sqrt (1 / inv_mass_diag i) * normals 0 i) init_step grad joint 1
        inv_mass_diag (some (joint theta).2)).r inv_mass_diag
    - ((joint theta).1
        - kinetic_energy (fun i => Real.sqrt (1 / inv_mass_diag i) * normals 0 i)
            inv_mass_diag) with hdelta
  have hhalf : Real.log 0.5 = -Real.log 2 := by
    rw [show (0.5 : ℝ) = 2⁻¹ by norm_num, Real.log_inv]
  by_cases hP : min 1 (Real.exp delta) > 1 / 2
  · have hdir : delta > Real.log 0.5 := by
      rw [hhalf]; exact (min_exp_gt_half_iff delta).mp hP
    rw [if_pos hdir, decide_eq_true hP]
    exact heuristicLoop_eq_claim_double theta grad joint inv_mass_diag normals
      _ _ max_attempts 0 init_step delta
  · have hdir : ¬(delta > Real.log 0.5) := by
      rw [hhalf]
      intro hc
      exact hP ((min_exp_gt_half_iff delta).mpr hc)
    rw [if_neg hdir, decide_eq_false hP]
    exact heuristicLoop_eq_claim_halve theta grad joint inv_mass_diag normals
      _ _ max_attempts 0 init_step delta

/-- Example target: gradient of the log-density `θ ↦ −θ²` on one
parameter. -/
noncomputable def exGrad : (Unit → ℝ) → Unit → ℝ :=
  fun th _ => -2 * th ()

/-- Example target: joint log-density and gradient of `θ ↦ −θ²`. -/
noncomputable def exJoint : (Unit → ℝ) → ℝ × (Unit → ℝ) :=
  fun th => (-(th () ^ 2), fun _ => -2 * th ())

/-- A single leapfrog step of the example model from θ = 0 with momentum 1
lands at θ = ε with momentum 1 − ε². -/
theorem exJoint_leapfrog (eps : ℝ) (rr gg : Unit → ℝ)
    (hr : rr = fun _ => 1) (hg : gg = fun _ => 0) :
    leapfrog (fun _ : Unit => (0 : ℝ)) rr eps exGrad exJoint 1
        (fun _ => 1) (some gg)
      = ⟨fun _ => eps, fun _ => 1 - eps ^ 2, -(eps ^ 2), fun _ => -2 * eps⟩ := by
  subst hr hg
  simp only [leapfrog, exJoint, exGrad, List.range_zero, List.foldl_nil,
    le_refl, if_true, Nat.sub_self]
  simp only [LeapfrogJointResult.mk.injEq]
  refine ⟨funext fun k => by ring, funext fun k => by ring, by ring,
    funext fun k => by ring⟩

/-- Kinetic energy of the unit momentum with unit mass is ½. -/
theorem exKin_one : kinetic_energy (fun _ : Unit => (1 : ℝ)) (fun _ => 1) = 1 / 2 := by
  simp [kinetic_energy, Fintype.sum_unique]
  norm_num

/-- Kinetic energy of a constant momentum with unit mass on one parameter. -/
theorem exKin (x : ℝ) :
    kinetic_energy (fun _ : Unit => x) (fun _ => 1) = x ^ 2 / 2 := by
  simp [kinetic_energy, Fintype.sum_unique]
  ring

/-- One leapfrog step of the example model from θ = 0 with momentum 1. -/
theorem exLf (eps : ℝ) :
    leapfrog (fun _ : Unit => (0 : ℝ)) (fun _ => 1) eps exGrad exJoint 1
        (fun _ => 1) (some fun _ => 0)
      = ⟨fun _ => eps, fun _ => 1 - eps ^ 2, -(eps ^ 2), fun _ => -2 * eps⟩ :=
  exJoint_leapfrog eps _ _ rfl rfl

theorem hg0ex : (exJoint fun _ : Unit => (0 : ℝ)).2 = fun _ : Unit => (0 : ℝ) := by
  funext i; simp [exJoint]

theorem hj1ex : (exJoint fun _ : Unit => (0 : ℝ)).1 = 0 := by simp [exJoint]

/-- exp(−½) ≈ 0.607 is below 0.625: the example's first-step acceptance
probability is between ½ and the 0.625 target. -/
theorem hexp_half_ex : Real.exp (-(1 / 2) : ℝ) < 5 / 8 := by
  have h1 : Real.exp (1 / 2 : ℝ) * Real.exp (1 / 2 : ℝ) = Real.exp 1 := by
    rw [← Real.exp_add]; norm_num
  have h2 : (2.7182818283 : ℝ) < Real.exp 1 := Real.exp_one_gt_d9
  have h4 : Real.exp (-(1 / 2) : ℝ) * Real.exp (1 / 2 : ℝ) = 1 := by
    rw [← Real.exp_add]; norm_num [Real.exp_zero]
  nlinarith [Real.exp_pos (-(1 / 2) : ℝ), Real.exp_pos (1 / 2 : ℝ)]

theorem hexp_32_ex : (5 / 8 : ℝ) < Real.exp (-(1 / 32) : ℝ) := by
  have := Real.add_one_le_exp (-(1 / 32) : ℝ)
  linarith

theorem hd1ex : Real.log (1 / 2) < -(1 / 2 : ℝ) := by
  rw [show (1 / 2 : ℝ) = 2⁻¹ by norm_num, Real.log_inv]
  have := Real.log_two_gt_d9
  linarith

/-- Counterexample to C3 as stated: on the one-parameter model with
log-density −θ², unit mass, momentum draws all 1, start ε = 1, target
acceptance 0.625 and cap 20, the first step has acceptance probability
exp(−½) ∈ (½, 0.625).  The claimed process (compare with the target
argument) halves and returns ½, but `heuristic_initial_step_size` compares
with ½ and doubles, returning 2. -/
theorem heuristic_initial_step_size_cex :
    heuristic_initial_step_size (fun _ : Unit => (0 : ℝ)) exGrad exJoint
        (fun _ => 1) (fun _ _ => 1) 0.625 1 20 = 2 ∧
    heuristic_initial_step_size_claimed (fun _ : Unit => (0 : ℝ)) exGrad exJoint
        (fun _ => 1) (fun _ _ => 1) 0.625 1 20 = 1 / 2 ∧
    (2 : ℝ) ≠ 1 / 2 := by
  refine ⟨?_, ?_, by norm_num⟩
  · simp only [heuristic_initial_step_size]
    norm_num [Real.sqrt_one]
    rw [hg0ex, hj1ex]
    simp only [exLf, exKin]
    norm_num
    rw [if_pos hd1ex]
    simp only [heuristicLoop]
    norm_num [Real.sqrt_one, exLf, exKin]
    rw [if_pos (by have := Real.log_two_gt_d9; linarith : (1 / 2 : ℝ) < Real.log 2),
      if_neg (not_lt.mpr (by have := Real.log_two_lt_d9; linarith : Real.log 2 ≤ (8 : ℝ)))]
  · simp only [heuristic_initial_step_size_claimed]
    norm_num [Real.sqrt_one]
    rw [hg0ex, hj1ex]
    simp only [exLf, exKin]
    norm_num
    rw [decide_eq_false (not_lt.mpr hexp_half_ex.le)]
    simp only [heuristicClaimLoop]
    norm_num [Real.sqrt_one, exLf, exKin]
    rw [if_pos hexp_half_ex, if_neg (not_lt.mpr hexp_32_ex.le)]

/-!
## Multi-chain dispatch (src/src/mcmc/mcmc_runner.cpp)

`run_mcmc_chain` performs a whole chain; the dispatch code treats it as a
black box, so the embedding abstracts it as a function of (model,
edge prior, config, chain id).  Deep copies (`clone()`) are value copies in
the functional embedding; `set_seed` rebuilds the RNG from the given seed.
The work-stealing scheduler of the parallel branch is modelled by an
arbitrary list of index ranges (`sched`), each processed by
`MCMCChainRunner::operator()`.
-/

/-- The field of `SamplerConfig` that the dispatch paths read. -/
structure SamplerConfig where
  seed : ℤ

/-- Sequential branch (`no_threads ≤ 1`) of `run_mcmc_sampler`: seed the
base model, then per chain clone, reseed with `seed + c` and run. -/
def run_mcmc_sampler_seq {M E R : Type}
    (clone : M → M) (set_seed : M → ℤ → M) (clone_prior : E → E)
    (run_mcmc_chain : M → E → SamplerConfig → ℕ → R)
    (model : M) (edge_prior : E) (config : SamplerConfig) (no_chains : ℕ) :
    List R :=
  let base := set_seed model config.seed
  (List.range no_chains).map fun c : ℕ =>
    run_mcmc_chain (set_seed (clone base) (config.seed + (c : ℤ)))
      (clone_prior edge_prior) config c

/-- The per-chain model vector built by the parallel branch:
`models[c] = clone(model); models[c]->set_seed(seed + c)`. -/
def parallel_models {M : Type} (clone : M → M) (set_seed : M → ℤ → M)
    (model : M) (config : SamplerConfig) : ℕ → M :=
  fun c => set_seed (clone model) (config.seed + c)

/-- `MCMCChainRunner::operator()(begin, end)`: re-seed chain i's model
with `seed + i` and run it, writing `results[i]`. -/
def chain_runner_range {M E R : Type}
    (set_seed : M → ℤ → M)
    (run_mcmc_chain : M → E → SamplerConfig → ℕ → R)
    (models : ℕ → M) (edge_priors : ℕ → E) (config : SamplerConfig)
    (results : ℕ → Option R) (b e : ℕ) : ℕ → Option R :=
  fun i =>
    if b ≤ i ∧ i < e then
      some (run_mcmc_chain (set_seed (models i) (config.seed + i))
        (edge_priors i) config i)
    else results i

/-- Parallel branch (`no_threads > 1`) of `run_mcmc_sampler`: clone models
and priors upfront, then let the scheduler process ranges in any order. -/
def run_mcmc_sampler_par {M E R : Type}
    (clone : M → M) (set_seed : M → ℤ → M) (clone_prior : E → E)
    (run_mcmc_chain : M → E → SamplerConfig → ℕ → R)
    (model : M) (edge_prior : E) (config : SamplerConfig)
    (sched : List (ℕ × ℕ)) : ℕ → Option R :=
  sched.foldl
    (fun results be =>
      chain_runner_range set_seed run_mcmc_chain
        (parallel_models clone set_seed model config)
        (fun _ => clone_prior edge_prior) config results be.1 be.2)
    (fun _ => none)

/-- Whatever ranges have been processed, a covered index holds its chain's
result and an uncovered one is untouched. -/
theorem run_mcmc_sampler_par_foldInv {M E R : Type}
    (clone : M → M) (set_seed : M → ℤ → M) (clone_prior : E → E)
    (run_mcmc_chain : M → E → SamplerConfig → ℕ → R)
    (model : M) (edge_prior : E) (config : SamplerConfig) :
    ∀ (sched : List (ℕ × ℕ)) (res0 : ℕ → Option R) (i : ℕ),
      (sched.foldl
        (fun results be =>
          chain_runner_range set_seed run_mcmc_chain
            (parallel_models clone set_seed model config)
            (fun _ => clone_prior edge_prior) config results be.1 be.2) res0) i
      = if ∃ be ∈ sched, be.1 ≤ i ∧ i < be.2 then
          some (run_mcmc_chain
            (set_seed (parallel_models clone set_seed model config i)
              (config.seed + i))
            (clone_prior edge_prior) config i)
        else res0 i := by
  intro sched
  induction sched with
  | nil =>
    intro res0 i
    simp [List.foldl_nil]
  | cons be rest ih =>
    intro res0 i
    rw [List.foldl_cons, ih]
    by_cases hrest : ∃ b ∈ rest, b.1 ≤ i ∧ i < b.2
    · rw [if_pos hrest]
      obtain ⟨b, hb, hbi⟩ := hrest
      rw [if_pos (⟨b, List.mem_cons_of_mem be hb, hbi⟩ :
        ∃ x ∈ be :: rest, x.1 ≤ i ∧ i < x.2)]
    · rw [if_neg hrest]
      by_cases hbe : be.1 ≤ i ∧ i < be.2
      · rw [chain_runner_range, if_pos hbe, if_pos ⟨be, List.mem_cons_self be rest, hbe⟩]
      · rw [chain_runner_range, if_neg hbe, if_neg]
        rintro ⟨b, hb, hbi⟩
        rcases List.mem_cons.mp hb with rfl | hb
        · exact hbe hbi
        · exact hrest ⟨b, hb, hbi⟩

/-- C8: with a fixed configuration, chain i's model is seeded with
`seed + i` in both the sequential and the parallel dispatch path of
`run_mcmc_sampler`, each chain running on its own model and edge-prior
clone; for every covering schedule of the work-stealing scheduler the
per-chain results of the two paths agree (they do not depend on the
thread count).  `hclone` states that a deep copy reproduces the value;
`hset` that `set_seed` discards the previous RNG state. -/
theorem run_mcmc_sampler_dispatch_equiv {M E R : Type}
    (clone : M → M) (set_seed : M → ℤ → M) (clone_prior : E → E)
    (run_mcmc_chain : M → E → SamplerConfig → ℕ → R)
    (model : M) (edge_prior : E) (config : SamplerConfig)
    (no_chains : ℕ) (sched : List (ℕ × ℕ))
    (hclone : ∀ m, clone m = m)
    (hset : ∀ m a b, set_seed (set_seed m a) b = set_seed m b)
    (hcover : ∀ i, i < no_chains → ∃ be ∈ sched, be.1 ≤ i ∧ i < be.2) :
    ∀ i, i < no_chains →
      run_mcmc_sampler_par clone set_seed clone_prior run_mcmc_chain
          model edge_prior config sched i
        = some (run_mcmc_chain (set_seed model (config.seed + (i : ℤ)))
            (clone_prior edge_prior) config i)
      ∧ (run_mcmc_sampler_seq clone set_seed clone_prior run_mcmc_chain
          model edge_prior config no_chains).get? i
        = some (run_mcmc_chain (set_seed model (config.seed + (i : ℤ)))
            (clone_prior edge_prior) config i) := by
  intro i hi
  constructor
  · rw [run_mcmc_sampler_par, run_mcmc_sampler_par_foldInv, if_pos (hcover i hi),
      parallel_models, hclone, hset]
  · rw [run_mcmc_sampler_seq]
    simp only [List.get?_map, List.get?_range hi, hclone, hset]
    rfl

/-- Witness for C8: three chains, base seed 5, a scheduler that processes
range (1,3) before (0,1); chain 2 gets the model seeded 5 + 2 = 7 in both
the parallel and the sequential path, with identical results. -/
theorem run_mcmc_sampler_dispatch_equiv_witness :
    run_mcmc_sampler_par (fun m : ℤ => m) (fun _ s => s) (fun e : Unit => e)
        (fun m _ _ c => (m, c)) 0 () ⟨5⟩ [(1, 3), (0, 1)] 2
      = some ((7 : ℤ), 2)
    ∧ (run_mcmc_sampler_seq (fun m : ℤ => m) (fun _ s => s) (fun e : Unit => e)
        (fun m _ _ c => (m, c)) 0 () ⟨5⟩ 3).get? 2
      = some ((7 : ℤ), 2) := by
  have h := run_mcmc_sampler_dispatch_equiv (M := ℤ) (E := Unit) (R := ℤ × ℕ)
    (fun m => m) (fun _ s => s) (fun e => e) (fun m _ _ c => (m, c))
    0 () ⟨5⟩ 3 [(1, 3), (0, 1)] (fun _ => rfl) (fun _ _ _ => rfl)
    (by decide) 2 (by norm_num)
  constructor
  · simpa using h.1
  · simpa using h.2

/-!
## Partition-function routines (src/src/utils/variable_helpers.cpp)

`compute_logZ_and_probs_ordinal` / `compute_logZ_and_probs_blume_capel`
process the observation vector in contiguous runs, but each run is chosen
by the per-row bound test and both block bodies act row-wise, so the
result is the row-map of a per-row function; the per-row function keeps
the source's branch structure (binary shortcut, fast power-chain block,
safe stabilized block).
-/

/-- One row of `compute_logZ_and_probs_ordinal`: probability row (category
0..num_cats) and log Z for residual `r` and overflow bound `b`. -/
noncomputable def logZ_probs_ordinal_row (main_param : ℕ → ℝ) (r b : ℝ)
    (num_cats : ℕ) : (ℕ → ℝ) × ℝ :=
  if num_cats = 1 then
    -- binary shortcut: b clamped to [0, ∞)
    let bc := max b 0
    let t := Real.exp (main_param 0 + r - bc)
    let den := Real.exp (-bc) + t
    (fun c => if c = 0 then 1 - t / den else if c = 1 then t / den else 0,
      bc + Real.log den)
  else if b < -709 ∨ 709 < b then
    -- safe block: stabilized exponents, b clamped to [0, ∞)
    let bc := max b 0
    let term := fun c : ℕ => Real.exp (main_param c + (c + 1) * r - bc)
    let den := Real.exp (-bc) + ∑ c ∈ Finset.range num_cats, term c
    (fun c => if c = 0 then 1 - ∑ c' ∈ Finset.range num_cats, term c' / den
      else if c ≤ num_cats then term (c - 1) / den else 0,
      bc + Real.log den)
  else
    -- fast block: power chain in exp(r)
    let term := fun c : ℕ =>
      Real.exp (main_param c) * Real.exp r ^ (c + 1) * Real.exp (-b)
    let den := Real.exp (-b) + ∑ c ∈ Finset.range num_cats, term c
    (fun c => if c = 0 then 1 - ∑ c' ∈ Finset.range num_cats, term c' / den
      else if c ≤ num_cats then term (c - 1) / den else 0,
      b + Real.log den)

/-- Embedding of `compute_logZ_and_probs_ordinal`: probability matrix and
log-Z vector, row i computed from `residual_score i` and `bound i`. -/
noncomputable def compute_logZ_and_probs_ordinal (main_param : ℕ → ℝ)
    (residual_score bound : ℕ → ℝ) (num_cats : ℕ) :
    (ℕ → ℕ → ℝ) × (ℕ → ℝ) :=
  (fun i c => (logZ_probs_ordinal_row main_param (residual_score i) (bound i)
      num_cats).1 c,
   fun i => (logZ_probs_ordinal_row main_param (residual_score i) (bound i)
      num_cats).2)

/-- The per-category exponent θ(c) of a Blume-Capel variable. -/
noncomputable def bcTheta (lin_eff quad_eff : ℝ) (ref : ℤ) (c : ℕ) : ℝ :=
  lin_eff * ((c : ℝ) - (ref : ℝ)) + quad_eff * ((c : ℝ) - (ref : ℝ)) ^ 2

/-- The internally recomputed overflow bound of the Blume-Capel routines:
max over categories of θ(c) + (c − ref)·r. -/
noncomputable def bcBound (lin_eff quad_eff : ℝ) (ref : ℤ) (num_cats : ℕ)
    (r : ℝ) : ℝ :=
  (List.range num_cats).foldl
    (fun acc c => max acc (bcTheta lin_eff quad_eff ref (c + 1)
      + (((c + 1 : ℕ) : ℝ) - (ref : ℝ)) * r))
    (bcTheta lin_eff quad_eff ref 0 + (((0 : ℕ) : ℝ) - (ref : ℝ)) * r)

/-- One row of `compute_logZ_and_probs_blume_capel`. -/
noncomputable def logZ_probs_blume_capel_row (lin_eff quad_eff : ℝ) (ref : ℤ)
    (num_cats : ℕ) (r : ℝ) : (ℕ → ℝ) × ℝ :=
  let theta := bcTheta lin_eff quad_eff ref
  let b := bcBound lin_eff quad_eff ref num_cats r
  let pow_bound := max |(-(ref : ℝ)) * r - b| |(((num_cats : ℝ)) - (ref : ℝ)) * r - b|
  if |b| ≤ 709 ∧ |pow_bound| ≤ 709 then
    -- fast block: power chain starting from exp(−ref·r − b)
    let col := fun c : ℕ =>
      Real.exp (theta c) * (Real.exp ((-(ref : ℝ)) * r - b) * Real.exp r ^ c)
    let denom := ∑ c ∈ Finset.range (num_cats + 1), col c
    (fun c => if c ≤ num_cats then col c / denom else 0, b + Real.log denom)
  else
    -- safe block
    let col := fun c : ℕ => Real.exp (theta c + ((c : ℝ) - (ref : ℝ)) * r - b)
    let denom := ∑ c ∈ Finset.range (num_cats + 1), col c
    (fun c => if c ≤ num_cats then col c / denom else 0, b + Real.log denom)

/-- Embedding of `compute_logZ_and_probs_blume_capel`. -/
noncomputable def compute_logZ_and_probs_blume_capel (residual : ℕ → ℝ)
    (lin_eff quad_eff : ℝ) (ref : ℤ) (num_cats : ℕ) :
    (ℕ → ℕ → ℝ) × (ℕ → ℝ) :=
  (fun i c => (logZ_probs_blume_capel_row lin_eff quad_eff ref num_cats
      (residual i)).1 c,
   fun i => (logZ_probs_blume_capel_row lin_eff quad_eff ref num_cats
      (residual i)).2)


theorem ordinal_block_facts (T : ℕ → ℝ) (K : ℕ) (eB : ℝ)
    (hT : ∀ c, 0 < T c) (heB : 0 < eB) :
    (∀ c : ℕ, 0 ≤ (if c = 0 then
        1 - ∑ c' ∈ Finset.range K, T c' / (eB + ∑ c'' ∈ Finset.range K, T c'')
      else if c ≤ K then T (c - 1) / (eB + ∑ c'' ∈ Finset.range K, T c'')
      else 0)) ∧
    (∑ c ∈ Finset.range (K + 1), (if c = 0 then
        1 - ∑ c' ∈ Finset.range K, T c' / (eB + ∑ c'' ∈ Finset.range K, T c'')
      else if c ≤ K then T (c - 1) / (eB + ∑ c'' ∈ Finset.range K, T c'')
      else 0)) = 1 := by
  have hS : 0 ≤ ∑ c ∈ Finset.range K, T c := Finset.sum_nonneg fun c _ => (hT c).le
  have hden : 0 < eB + ∑ c'' ∈ Finset.range K, T c'' := by linarith
  have hfrac : 1 - ∑ c' ∈ Finset.range K, T c' / (eB + ∑ c'' ∈ Finset.range K, T c'')
      = eB / (eB + ∑ c'' ∈ Finset.range K, T c'') := by
    rw [← Finset.sum_div]
    field_simp
  constructor
  · intro c
    rcases Nat.eq_zero_or_pos c with rfl | hc
    · rw [if_pos rfl, hfrac]
      positivity
    · by_cases hcK : c ≤ K
      · rw [if_neg (by omega : c ≠ 0), if_pos hcK]
        exact div_nonneg (hT _).le hden.le
      · rw [if_neg (by omega : c ≠ 0), if_neg hcK]
  · rw [Finset.sum_range_succ']
    have hup : ∀ i ∈ Finset.range K,
        (if i + 1 = 0 then
          1 - ∑ c' ∈ Finset.range K, T c' / (eB + ∑ c'' ∈ Finset.range K, T c'')
        else if i + 1 ≤ K then T (i + 1 - 1) / (eB + ∑ c'' ∈ Finset.range K, T c'')
        else 0) = T i / (eB + ∑ c'' ∈ Finset.range K, T c'') := by
      intro i hi
      rw [if_neg (Nat.succ_ne_zero i),
        if_pos (Nat.succ_le_of_lt (Finset.mem_range.mp hi)), Nat.add_sub_cancel]
    rw [Finset.sum_congr rfl hup, if_pos rfl]
    simp only [← Finset.sum_div]
    field_simp
    ring

theorem logZ_probs_ordinal_row_spec (main_param : ℕ → ℝ) (r b : ℝ) (K : ℕ) :
    (∀ c, 0 ≤ (logZ_probs_ordinal_row main_param r b K).1 c) ∧
    (∑ c ∈ Finset.range (K + 1), (logZ_probs_ordinal_row main_param r b K).1 c) = 1 ∧
    Real.exp (logZ_probs_ordinal_row main_param r b K).2
      = 1 + ∑ c ∈ Finset.range K, Real.exp (main_param c + (c + 1) * r) := by
  simp only [logZ_probs_ordinal_row]
  split_ifs with h1 h2
  · -- binary shortcut, K = 1
    subst h1
    have htpos : 0 < Real.exp (main_param 0 + r - max b 0) := Real.exp_pos _
    have heB : 0 < Real.exp (-(max b 0)) := Real.exp_pos _
    have hden : 0 < Real.exp (-(max b 0)) + Real.exp (main_param 0 + r - max b 0) := by
      linarith
    have hfrac : 1 - Real.exp (main_param 0 + r - max b 0)
          / (Real.exp (-(max b 0)) + Real.exp (main_param 0 + r - max b 0))
        = Real.exp (-(max b 0))
          / (Real.exp (-(max b 0)) + Real.exp (main_param 0 + r - max b 0)) := by
      field_simp
    refine ⟨?_, ?_, ?_⟩
    · intro c
      dsimp only
      rcases Nat.eq_zero_or_pos c with rfl | hc
      · rw [if_pos rfl, hfrac]
        positivity
      · by_cases hc1 : c = 1
        · subst hc1
          rw [if_neg (show (1 : ℕ) ≠ 0 by norm_num), if_pos rfl]
          positivity
        · rw [if_neg (show c ≠ 0 by omega), if_neg hc1]
    · dsimp only
      rw [Finset.sum_range_succ, Finset.sum_range_one]
      norm_num
    · dsimp only
      rw [Real.exp_add, Real.exp_log hden, Finset.sum_range_one, mul_add,
        ← Real.exp_add, ← Real.exp_add]
      norm_num
  · -- safe block
    have h := ordinal_block_facts
      (fun c : ℕ => Real.exp (main_param c + (c + 1) * r - max b 0)) K
      (Real.exp (-(max b 0))) (fun c => Real.exp_pos _) (Real.exp_pos _)
    refine ⟨h.1, h.2, ?_⟩
    have hden : 0 < Real.exp (-(max b 0))
        + ∑ c ∈ Finset.range K, Real.exp (main_param c + (c + 1) * r - max b 0) := by
      have : 0 ≤ ∑ c ∈ Finset.range K, Real.exp (main_param c + (c + 1) * r - max b 0) :=
        Finset.sum_nonneg fun c _ => (Real.exp_pos _).le
      linarith [Real.exp_pos (-(max b 0))]
    rw [Real.exp_add, Real.exp_log hden, mul_add, ← Real.exp_add, Finset.mul_sum]
    have hc : ∀ c ∈ Finset.range K,
        Real.exp (max b 0) * Real.exp (main_param c + (c + 1) * r - max b 0)
          = Real.exp (main_param c + (c + 1) * r) := by
      intro c _
      rw [← Real.exp_add]
      ring_nf
    rw [Finset.sum_congr rfl hc]
    norm_num
  · -- fast block
    have h := ordinal_block_facts
      (fun c : ℕ => Real.exp (main_param c) * Real.exp r ^ (c + 1) * Real.exp (-b)) K
      (Real.exp (-b)) (fun c => by positivity) (Real.exp_pos _)
    refine ⟨h.1, h.2, ?_⟩
    have hden : 0 < Real.exp (-b)
        + ∑ c ∈ Finset.range K, Real.exp (main_param c) * Real.exp r ^ (c + 1) * Real.exp (-b) := by
      have : 0 ≤ ∑ c ∈ Finset.range K, Real.exp (main_param c) * Real.exp r ^ (c + 1) * Real.exp (-b) :=
        Finset.sum_nonneg fun c _ => by positivity
      linarith [Real.exp_pos (-b)]
    rw [Real.exp_add, Real.exp_log hden, mul_add, ← Real.exp_add, Finset.mul_sum]
    have hc : ∀ c ∈ Finset.range K,
        Real.exp b * (Real.exp (main_param c) * Real.exp r ^ (c + 1) * Real.exp (-b))
          = Real.exp (main_param c + (c + 1) * r) := by
      intro c _
      rw [show Real.exp r ^ (c + 1) = Real.exp (((c + 1 : ℕ) : ℝ) * r) from
        (Real.exp_nat_mul r (c + 1)).symm]
      rw [← Real.exp_add, ← Real.exp_add, ← Real.exp_add]
      push_cast
      ring_nf
    rw [Finset.sum_congr rfl hc]
    norm_num


theorem bc_block_facts (col : ℕ → ℝ) (K : ℕ) (hcol : ∀ c, 0 < col c) :
    (∀ c : ℕ, 0 ≤ (if c ≤ K then col c / ∑ c' ∈ Finset.range (K + 1), col c' else 0)) ∧
    (∑ c ∈ Finset.range (K + 1),
      (if c ≤ K then col c / ∑ c' ∈ Finset.range (K + 1), col c' else 0)) = 1 := by
  have hD : 0 < ∑ c' ∈ Finset.range (K + 1), col c' :=
    Finset.sum_pos (fun c _ => hcol c) Finset.nonempty_range_succ
  constructor
  · intro c
    by_cases hc : c ≤ K
    · rw [if_pos hc]
      exact div_nonneg (hcol c).le hD.le
    · rw [if_neg hc]
  · have hup : ∀ c ∈ Finset.range (K + 1),
        (if c ≤ K then col c / ∑ c' ∈ Finset.range (K + 1), col c' else 0)
          = col c / ∑ c' ∈ Finset.range (K + 1), col c' := by
      intro c hc
      rw [if_pos (Nat.lt_succ_iff.mp (Finset.mem_range.mp hc))]
    rw [Finset.sum_congr rfl hup, ← Finset.sum_div, div_self hD.ne.symm]

theorem logZ_probs_blume_capel_row_spec (lin_eff quad_eff : ℝ) (ref : ℤ)
    (num_cats : ℕ) (r : ℝ) :
    (∀ c, 0 ≤ (logZ_probs_blume_capel_row lin_eff quad_eff ref num_cats r).1 c) ∧
    (∑ c ∈ Finset.range (num_cats + 1),
      (logZ_probs_blume_capel_row lin_eff quad_eff ref num_cats r).1 c) = 1 ∧
    Real.exp (logZ_probs_blume_capel_row lin_eff quad_eff ref num_cats r).2
      = ∑ c ∈ Finset.range (num_cats + 1),
          Real.exp (bcTheta lin_eff quad_eff ref c + ((c : ℝ) - (ref : ℝ)) * r) := by
  simp only [logZ_probs_blume_capel_row]
  generalize bcBound lin_eff quad_eff ref num_cats r = B
  split_ifs with hfb
  · -- fast block
    have h := bc_block_facts
      (fun c : ℕ => Real.exp (bcTheta lin_eff quad_eff ref c)
        * (Real.exp ((-(ref : ℝ)) * r - B) * Real.exp r ^ c)) num_cats
      (fun c => by positivity)
    refine ⟨h.1, h.2, ?_⟩
    have hD : 0 < ∑ c' ∈ Finset.range (num_cats + 1),
        Real.exp (bcTheta lin_eff quad_eff ref c')
          * (Real.exp ((-(ref : ℝ)) * r - B) * Real.exp r ^ c') :=
      Finset.sum_pos (fun c _ => by positivity) Finset.nonempty_range_succ
    rw [Real.exp_add, Real.exp_log hD, Finset.mul_sum]
    refine Finset.sum_congr rfl fun c _ => ?_
    rw [show Real.exp r ^ c = Real.exp ((c : ℕ) * r) from (Real.exp_nat_mul r c).symm]
    rw [← Real.exp_add, ← Real.exp_add, ← Real.exp_add]
    ring_nf
  · -- safe block
    have h := bc_block_facts
      (fun c : ℕ => Real.exp (bcTheta lin_eff quad_eff ref c
        + ((c : ℝ) - (ref : ℝ)) * r - B)) num_cats (fun c => Real.exp_pos _)
    refine ⟨h.1, h.2, ?_⟩
    have hD : 0 < ∑ c' ∈ Finset.range (num_cats + 1),
        Real.exp (bcTheta lin_eff quad_eff ref c' + ((c' : ℝ) - (ref : ℝ)) * r - B) :=
      Finset.sum_pos (fun c _ => Real.exp_pos _) Finset.nonempty_range_succ
    rw [Real.exp_add, Real.exp_log hD, Finset.mul_sum]
    refine Finset.sum_congr rfl fun c _ => ?_
    rw [← Real.exp_add]
    ring_nf

/-- C6: for every row i, both partition-function routines return a
probability row that is entrywise non-negative and sums exactly to 1 over
the K+1 categories, and a log-normalizer whose exponential equals the sum
of the category numerators of that row (1 + sum of exp(main(c) + (c+1) r)
for the ordinal coding; sum of exp(theta(c) + (c - ref) r) for the
Blume-Capel coding). -/
theorem compute_logZ_and_probs_spec (main_param : ℕ → ℝ)
    (residual_score bound : ℕ → ℝ) (K : ℕ)
    (residual : ℕ → ℝ) (lin_eff quad_eff : ℝ) (ref : ℤ) (i : ℕ) :
    ((∀ c, 0 ≤ (compute_logZ_and_probs_ordinal main_param residual_score bound K).1 i c) ∧
     (∑ c ∈ Finset.range (K + 1),
       (compute_logZ_and_probs_ordinal main_param residual_score bound K).1 i c) = 1 ∧
     Real.exp ((compute_logZ_and_probs_ordinal main_param residual_score bound K).2 i)
       = 1 + ∑ c ∈ Finset.range K,
           Real.exp (main_param c + (c + 1) * residual_score i)) ∧
    ((∀ c, 0 ≤ (compute_logZ_and_probs_blume_capel residual lin_eff quad_eff ref K).1 i c) ∧
     (∑ c ∈ Finset.range (K + 1),
       (compute_logZ_and_probs_blume_capel residual lin_eff quad_eff ref K).1 i c) = 1 ∧
     Real.exp ((compute_logZ_and_probs_blume_capel residual lin_eff quad_eff ref K).2 i)
       = ∑ c ∈ Finset.range (K + 1),
           Real.exp (bcTheta lin_eff quad_eff ref c
             + ((c : ℝ) - (ref : ℝ)) * residual i)) := by
  constructor
  · exact logZ_probs_ordinal_row_spec main_param (residual_score i) (bound i) K
  · exact logZ_probs_blume_capel_row_spec lin_eff quad_eff ref K (residual i)


/-!
## Ordinal MRF model state and mutators (src/src/models/omrf/omrf_model.cpp)

The model state is embedded as functions over ℕ indices with explicit
dimensions `n` (persons) and `p` (variables); matrices that the claims
never read through (gradient caches, adapters) are omitted.  RNG draws
are explicit arguments: `z` is a standard-normal draw (`rnorm(rng, m, sd)`
becomes `m + sd * z`) and `u01` a uniform(0,1) draw.  The
log-pseudoposterior lambda handed to `rwm_sampler` is abstracted as a
function argument `lp`, exactly as the C++ passes a `std::function`; the
theorems below hold for every such function.
-/

structure OMRFState (n p : ℕ) where
  observations : ℕ → ℕ → ℤ
  observationsD : ℕ → ℕ → ℝ
  residual : ℕ → ℕ → ℝ
  mainEffects : ℕ → ℕ → ℝ
  pairwiseEffects : ℕ → ℕ → ℝ
  edgeIndicators : ℕ → ℕ → ℤ
  proposalSdPairwise : ℕ → ℕ → ℝ
  pairwiseStats : ℕ → ℕ → ℤ
  countsPerCategory : ℤ → ℕ → ℤ
  blumeCapelStats : ℕ → ℕ → ℤ
  isOrdinal : ℕ → Bool
  numCats : ℕ → ℕ
  baselineCat : ℕ → ℤ
  missingIndex : List (ℕ × ℕ)

/-- `rwm_sampler` (src/src/mcmc/rwm.cpp): propose `current + step_size·z`,
accept iff `u01 < min(1, exp(Δ log-posterior))`; returns (new state,
acceptance probability). -/
noncomputable def rwm_sampler (current step_size : ℝ) (lp : ℝ → ℝ)
    (z u01 : ℝ) : ℝ × ℝ :=
  let proposed := current + step_size * z
  let accept_prob := min 1 (Real.exp (lp proposed - lp current))
  (if u01 < accept_prob then proposed else current, accept_prob)

/-- Shared tail of `update_pairwise_effect` and the `tune_proposal_sd`
sweep body: write `value` to both `(var1,var2)` entries of the pairwise
matrix and, when the value moved, add `obs.col(var2)·δ` / `obs.col(var1)·δ`
to residual columns `var1` / `var2` (the C++ uses the integer observation
matrix here). -/
noncomputable def apply_pairwise_value (n p : ℕ) (s : OMRFState n p)
    (var1 var2 : ℕ) (value : ℝ) : OMRFState n p :=
  let current := s.pairwiseEffects var1 var2
  { s with
    pairwiseEffects := fun a b =>
      if a = var2 ∧ b = var1 then value
      else if a = var1 ∧ b = var2 then value
      else s.pairwiseEffects a b,
    residual := if current = value then s.residual else
      fun i v =>
        if v = var1 then s.residual i v + (s.observations i var2 : ℝ) * (value - current)
        else if v = var2 then s.residual i v + (s.observations i var1 : ℝ) * (value - current)
        else s.residual i v }

/-- `OMRFModel::update_pairwise_effect`: skip if the edge indicator is 0,
otherwise a random-walk Metropolis update of the pairwise effect. -/
noncomputable def update_pairwise_effect (n p : ℕ) (s : OMRFState n p)
    (var1 var2 : ℕ) (lp : ℝ → ℝ) (z u01 : ℝ) : OMRFState n p :=
  if s.edgeIndicators var1 var2 = 0 then s
  else
    apply_pairwise_value n p s var1 var2
      (rwm_sampler (s.pairwiseEffects var1 var2) (s.proposalSdPairwise var1 var2)
        lp z u01).1

/-- One pair of the `OMRFModel::tune_proposal_sd` sweep: a random-walk
Metropolis update of the pairwise effect — with no edge-indicator guard —
followed by a Robbins-Monro update of the proposal sd (target 0.44). -/
noncomputable def tune_pairwise_pair (n p : ℕ) (s : OMRFState n p)
    (var1 var2 : ℕ) (lp : ℝ → ℝ) (z u01 rm_weight : ℝ) : OMRFState n p :=
  let res := rwm_sampler (s.pairwiseEffects var1 var2)
    (s.proposalSdPairwise var1 var2) lp z u01
  let s1 := apply_pairwise_value n p s var1 var2 res.1
  let sd := rmUpdate (s.proposalSdPairwise var1 var2) (Real.log res.2) rm_weight 0.44
  { s1 with proposalSdPairwise := fun a b =>
      if (a = var2 ∧ b = var1) ∨ (a = var1 ∧ b = var2) then sd
      else s1.proposalSdPairwise a b }

/-- `OMRFModel::update_edge_indicator`: birth/death move.  The proposal is
`current + sd·z` when adding and `0` when removing; `log_accept` (the
pseudolikelihood ratio plus prior and proposal terms, a pure function of
the state and draw) is abstracted as an argument.  On acceptance both
indicator entries flip, both pairwise entries are set to the proposed
state, and the residual columns are shifted by δ (unconditionally). -/
noncomputable def update_edge_indicator (n p : ℕ) (s : OMRFState n p)
    (var1 var2 : ℕ) (z log_accept u01 : ℝ) : OMRFState n p :=
  let current_state := s.pairwiseEffects var1 var2
  let proposed_state :=
    if s.edgeIndicators var1 var2 = 0
    then current_state + s.proposalSdPairwise var1 var2 * z else 0
  if Real.log u01 < log_accept then
    let updated := 1 - s.edgeIndicators var1 var2
    { s with
      edgeIndicators := fun a b =>
        if (a = var2 ∧ b = var1) ∨ (a = var1 ∧ b = var2) then updated
        else s.edgeIndicators a b,
      pairwiseEffects := fun a b =>
        if a = var2 ∧ b = var1 then proposed_state
        else if a = var1 ∧ b = var2 then proposed_state
        else s.pairwiseEffects a b,
      residual := fun i v =>
        if v = var1 then s.residual i v + (s.observations i var2 : ℝ) * (proposed_state - current_state)
        else if v = var2 then s.residual i v + (s.observations i var1 : ℝ) * (proposed_state - current_state)
        else s.residual i v }
  else s

/-- `OMRFModel::update_residual_matrix`: full recompute
`residual = observations_double · pairwise_effects`. -/
noncomputable def update_residual_matrix (n p : ℕ) (s : OMRFState n p) :
    OMRFState n p :=
  { s with residual := fun i v =>
      ∑ k ∈ Finset.range p, s.observationsD i k * s.pairwiseEffects k v }

/-- The upper-triangular pair ordering `(v1, v2)`, `v1 < v2 < p`, row by
row, as iterated by the C++ double loops. -/
def upperPairs (p : ℕ) : List (ℕ × ℕ) :=
  (List.range p).bind fun v1 =>
    (List.range' (v1 + 1) (p - (v1 + 1))).map fun v2 => (v1, v2)

/-- One pair of `OMRFModel::initialize_graph`: draw the indicator
(`draw = (runif < inclusion_probability)`), write it symmetrically, and
zero both pairwise entries when the edge is off. -/
noncomputable def init_graph_pair (n p : ℕ) (s : OMRFState n p)
    (q : ℕ × ℕ) (draw : Bool) : OMRFState n p :=
  { s with
    edgeIndicators := fun a b =>
      if (a = q.2 ∧ b = q.1) ∨ (a = q.1 ∧ b = q.2) then (if draw then 1 else 0)
      else s.edgeIndicators a b,
    pairwiseEffects := if draw then s.pairwiseEffects else fun a b =>
      if (a = q.2 ∧ b = q.1) ∨ (a = q.1 ∧ b = q.2) then 0
      else s.pairwiseEffects a b }

/-- `OMRFModel::initialize_graph` (named `init_graph` here): redraw every
indicator, zero the pairwise effects of absent edges, then recompute the
residual matrix. -/
noncomputable def init_graph (n p : ℕ) (s : OMRFState n p)
    (draws : ℕ → ℕ → Bool) : OMRFState n p :=
  update_residual_matrix n p
    ((upperPairs p).foldl (fun st q => init_graph_pair n p st q (draws q.1 q.2)) s)

/-- Inverse-transform sampling from a cumulative-weight list, as the
`while (u > category_probabilities[sampled_score]) sampled_score++;` loop. -/
noncomputable def sampleFromCumulative (u : ℝ) : List ℝ → ℕ
  | [] => 0
  | c :: rest => if u > c then sampleFromCumulative u rest + 1 else 0

/-- Cumulative weights built by the ordinal branch of
`OMRFModel::impute_missing`: entry `score` holds
`1 + Σ_{cat < score} exp(main(cat) + (cat+1)·r)`. -/
noncomputable def ordinalImputeCum (mainRow : ℕ → ℝ) (r : ℝ)
    (num_cats : ℕ) : List ℝ :=
  (List.range (num_cats + 1)).map fun score =>
    1 + ∑ c ∈ Finset.range score, Real.exp (mainRow c + ((c : ℝ) + 1) * r)

/-- Cumulative weights built by the Blume-Capel branch of
`OMRFModel::impute_missing`: the running sum starts at
`exp(lin·ref + quad·ref²)` (the "category 0" seed written before the
loop) and entry `cat` holds the seed plus `Σ_{c ≤ cat} exp(lin·s + quad·s²
+ s·r)` with `s = c − ref` (entry 0 is overwritten by the `cat = 0`
iteration). -/
noncomputable def bcImputeCum (lin quad : ℝ) (ref : ℤ) (r : ℝ)
    (num_cats : ℕ) : List ℝ :=
  (List.range (num_cats + 1)).map fun cat =>
    Real.exp (lin * (ref : ℝ) + quad * (ref : ℝ) * (ref : ℝ))
      + ∑ c ∈ Finset.range (cat + 1),
          Real.exp (lin * ((c : ℝ) - (ref : ℝ))
            + quad * ((c : ℝ) - (ref : ℝ)) * ((c : ℝ) - (ref : ℝ))
            + ((c : ℝ) - (ref : ℝ)) * r)

/-- One missing entry `(person, variable)` of `OMRFModel::impute_missing`:
build the cumulative weights, sample `sampleFromCumulative (u01 · cumsum)`,
shift by the baseline for Blume-Capel variables, and when the value moved
update observations (both copies), category counts / Blume-Capel
sufficient statistics, and row `person` of the residual matrix. -/
noncomputable def imputeEntry (n p : ℕ) (s : OMRFState n p) (u01 : ℝ)
    (q : ℕ × ℕ) : OMRFState n p :=
  let person := q.1
  let vr := q.2
  let r := s.residual person vr
  let num_cats := s.numCats vr
  let probs := if s.isOrdinal vr
    then ordinalImputeCum (s.mainEffects vr) r num_cats
    else bcImputeCum (s.mainEffects vr 0) (s.mainEffects vr 1)
      (s.baselineCat vr) r num_cats
  let cumsum := probs.getLast?.getD 0
  let sampled := sampleFromCumulative (u01 * cumsum) probs
  let new_value : ℤ := if s.isOrdinal vr then (sampled : ℤ)
    else (sampled : ℤ) - s.baselineCat vr
  let old_value := s.observations person vr
  if new_value = old_value then s
  else
    { s with
      observations := fun i v =>
        if i = person ∧ v = vr then new_value else s.observations i v,
      observationsD := fun i v =>
        if i = person ∧ v = vr then (new_value : ℝ) else s.observationsD i v,
      countsPerCategory := if s.isOrdinal vr then fun cat v =>
          if v = vr ∧ cat = old_value then s.countsPerCategory cat v - 1
          else if v = vr ∧ cat = new_value then s.countsPerCategory cat v + 1
          else s.countsPerCategory cat v
        else s.countsPerCategory,
      blumeCapelStats := if s.isOrdinal vr then s.blumeCapelStats
        else fun row v =>
          if v = vr ∧ row = 0 then s.blumeCapelStats row v + (new_value - old_value)
          else if v = vr ∧ row = 1 then
            s.blumeCapelStats row v + (new_value * new_value - old_value * old_value)
          else s.blumeCapelStats row v,
      residual := fun i v =>
        if i = person ∧ v < p then
          s.residual i v + ((new_value - old_value : ℤ) : ℝ) * s.pairwiseEffects v vr
        else s.residual i v }

/-- `OMRFModel::impute_missing`: early return when nothing is missing,
otherwise re-impute every recorded entry in order (`us k` is the uniform
draw of the k-th entry) and finally recompute the pairwise sufficient
statistics. -/
noncomputable def impute_missing (n p : ℕ) (s : OMRFState n p)
    (us : ℕ → ℝ) : OMRFState n p :=
  if s.missingIndex = [] then s
  else
    let s1 := (s.missingIndex.foldl
      (fun (ac : OMRFState n p × ℕ) q => (imputeEntry n p ac.1 (us ac.2) q, ac.2 + 1))
      (s, 0)).1
    { s1 with pairwiseStats := fun a b =>
        ∑ i ∈ Finset.range n, s1.observations i a * s1.observations i b }

/-- One mutation step of the OMRF model: the state-mutating operations the
sampler drives between sample records. -/
inductive OMRFStep (n p : ℕ) : OMRFState n p → OMRFState n p → Prop
  | pairwise (s : OMRFState n p) (var1 var2 : ℕ) (h1 : var1 < var2) (h2 : var2 < p)
      (lp : ℝ → ℝ) (z u01 : ℝ) :
      OMRFStep n p s (update_pairwise_effect n p s var1 var2 lp z u01)
  | edge (s : OMRFState n p) (var1 var2 : ℕ) (h1 : var1 < var2) (h2 : var2 < p)
      (z log_accept u01 : ℝ) :
      OMRFStep n p s (update_edge_indicator n p s var1 var2 z log_accept u01)
  | graphInit (s : OMRFState n p) (draws : ℕ → ℕ → Bool) :
      OMRFStep n p s (init_graph n p s draws)
  | impute (s : OMRFState n p) (us : ℕ → ℝ) :
      OMRFStep n p s (impute_missing n p s us)
  | tune (s : OMRFState n p) (var1 var2 : ℕ) (h1 : var1 < var2) (h2 : var2 < p)
      (lp : ℝ → ℝ) (z u01 rm_weight : ℝ) :
      OMRFStep n p s (tune_pairwise_pair n p s var1 var2 lp z u01 rm_weight)

/-- Structural consistency of an OMRF state: the pairwise matrix is
symmetric, the double copy of the observations matches the integer copy,
the recorded missing entries point at real variables, and the residual
matrix is the product observations_double · pairwise_effects. -/
def OMRFConsistent (n p : ℕ) (s : OMRFState n p) : Prop :=
  (∀ a b, s.pairwiseEffects a b = s.pairwiseEffects b a) ∧
  (∀ i v, s.observationsD i v = (s.observations i v : ℝ)) ∧
  (∀ q ∈ s.missingIndex, q.2 < p) ∧
  (∀ i, i < n → ∀ v, v < p →
    s.residual i v = ∑ k ∈ Finset.range p, s.observationsD i k * s.pairwiseEffects k v)


theorem sym_write_product {n p : ℕ} (s : OMRFState n p) (var1 var2 : ℕ)
    (h12 : var1 ≠ var2) (h1 : var1 < p) (h2 : var2 < p) (value : ℝ)
    (hc : OMRFConsistent n p s) (i v : ℕ) (hi : i < n) (hv : v < p) :
    (if v = var1 then s.residual i v + (s.observations i var2 : ℝ) * (value - s.pairwiseEffects var1 var2)
     else if v = var2 then s.residual i v + (s.observations i var1 : ℝ) * (value - s.pairwiseEffects var1 var2)
     else s.residual i v)
      = ∑ k ∈ Finset.range p, s.observationsD i k *
          (if k = var2 ∧ v = var1 then value
           else if k = var1 ∧ v = var2 then value
           else s.pairwiseEffects k v) := by
  obtain ⟨hsym, hcast, hmiss, hres⟩ := hc
  rcases eq_or_ne v var1 with rfl | hv1
  · rw [if_pos rfl]
    have hcond : ∀ k ∈ Finset.range p,
        s.observationsD i k * (if k = var2 ∧ v = v then value
          else if k = v ∧ v = var2 then value else s.pairwiseEffects k v)
          = s.observationsD i k * (if k = var2 then value else s.pairwiseEffects k v) := by
      intro k _
      rcases eq_or_ne k var2 with rfl | hk
      · rw [if_pos ⟨rfl, rfl⟩, if_pos rfl]
      · rw [if_neg (by tauto), if_neg hk, if_neg (by tauto)]
    have hterm : ∀ k ∈ Finset.range p,
        s.observationsD i k * (if k = var2 then value else s.pairwiseEffects k v)
          = s.observationsD i k * s.pairwiseEffects k v
            + (if k = var2 then s.observationsD i k * (value - s.pairwiseEffects v var2) else 0) := by
      intro k _
      rcases eq_or_ne k var2 with rfl | hk
      · rw [if_pos rfl, if_pos rfl, hsym k v]
        ring
      · rw [if_neg hk, if_neg hk]
        ring
    rw [Finset.sum_congr rfl hcond, Finset.sum_congr rfl hterm, Finset.sum_add_distrib,
      Finset.sum_ite_eq' (Finset.range p) var2
        (fun k => s.observationsD i k * (value - s.pairwiseEffects v var2)),
      if_pos (Finset.mem_range.mpr h2), ← hres i hi v hv, hcast i var2]
  · rcases eq_or_ne v var2 with rfl | hv2
    · rw [if_neg hv1, if_pos rfl]
      have hcond : ∀ k ∈ Finset.range p,
          s.observationsD i k * (if k = v ∧ v = var1 then value
            else if k = var1 ∧ v = v then value else s.pairwiseEffects k v)
            = s.observationsD i k * (if k = var1 then value else s.pairwiseEffects k v) := by
        intro k _
        rcases eq_or_ne k var1 with rfl | hk
        · rw [if_neg (by tauto), if_pos ⟨rfl, rfl⟩, if_pos rfl]
        · rw [if_neg (by tauto), if_neg (by tauto), if_neg hk]
      have hterm : ∀ k ∈ Finset.range p,
          s.observationsD i k * (if k = var1 then value else s.pairwiseEffects k v)
            = s.observationsD i k * s.pairwiseEffects k v
              + (if k = var1 then s.observationsD i k * (value - s.pairwiseEffects var1 v) else 0) := by
        intro k _
        rcases eq_or_ne k var1 with rfl | hk
        · rw [if_pos rfl, if_pos rfl]
          ring
        · rw [if_neg hk, if_neg hk]
          ring
      rw [Finset.sum_congr rfl hcond, Finset.sum_congr rfl hterm, Finset.sum_add_distrib,
        Finset.sum_ite_eq' (Finset.range p) var1
          (fun k => s.observationsD i k * (value - s.pairwiseEffects var1 v)),
        if_pos (Finset.mem_range.mpr h1), ← hres i hi v hv, hcast i var1]
    · rw [if_neg hv1, if_neg hv2]
      have hcond : ∀ k ∈ Finset.range p,
          s.observationsD i k * (if k = var2 ∧ v = var1 then value
            else if k = var1 ∧ v = var2 then value else s.pairwiseEffects k v)
            = s.observationsD i k * s.pairwiseEffects k v := by
        intro k _
        rw [if_neg (by tauto), if_neg (by tauto)]
      rw [Finset.sum_congr rfl hcond, ← hres i hi v hv]


theorem apply_pairwise_value_consistent {n p : ℕ} {s : OMRFState n p}
    (var1 var2 : ℕ) (h12 : var1 < var2) (h2 : var2 < p) (value : ℝ)
    (hc : OMRFConsistent n p s) :
    OMRFConsistent n p (apply_pairwise_value n p s var1 var2 value) := by
  obtain ⟨hsym, hcast, hmiss, hres⟩ := hc
  have hne : var1 ≠ var2 := Nat.ne_of_lt h12
  have h1 : var1 < p := lt_trans h12 h2
  refine ⟨?_, ?_, ?_, ?_⟩
  · intro a b
    simp only [apply_pairwise_value]
    split_ifs <;> first | rfl | tauto | exact hsym a b
  · intro i v
    simp only [apply_pairwise_value]
    exact hcast i v
  · simp only [apply_pairwise_value]
    exact hmiss
  · intro i hi v hv
    have h := sym_write_product s var1 var2 hne h1 h2 value
      ⟨hsym, hcast, hmiss, hres⟩ i v hi hv
    simp only [apply_pairwise_value]
    rcases eq_or_ne (s.pairwiseEffects var1 var2) value with heq | hne2
    · rw [if_pos heq, ← h]
      split_ifs <;> (try rw [← heq]) <;> ring
    · rw [if_neg hne2, ← h]

theorem update_pairwise_effect_consistent {n p : ℕ} {s : OMRFState n p}
    (var1 var2 : ℕ) (h12 : var1 < var2) (h2 : var2 < p) (lp : ℝ → ℝ) (z u01 : ℝ)
    (hc : OMRFConsistent n p s) :
    OMRFConsistent n p (update_pairwise_effect n p s var1 var2 lp z u01) := by
  rw [update_pairwise_effect]
  split_ifs with hind
  · exact hc
  · exact apply_pairwise_value_consistent var1 var2 h12 h2 _ hc

theorem tune_pairwise_pair_consistent {n p : ℕ} {s : OMRFState n p}
    (var1 var2 : ℕ) (h12 : var1 < var2) (h2 : var2 < p) (lp : ℝ → ℝ)
    (z u01 rm_weight : ℝ) (hc : OMRFConsistent n p s) :
    OMRFConsistent n p (tune_pairwise_pair n p s var1 var2 lp z u01 rm_weight) := by
  have h := apply_pairwise_value_consistent var1 var2 h12 h2
    (rwm_sampler (s.pairwiseEffects var1 var2) (s.proposalSdPairwise var1 var2)
      lp z u01).1 hc
  exact ⟨h.1, h.2.1, h.2.2.1, h.2.2.2⟩

theorem update_edge_indicator_consistent {n p : ℕ} {s : OMRFState n p}
    (var1 var2 : ℕ) (h12 : var1 < var2) (h2 : var2 < p) (z log_accept u01 : ℝ)
    (hc : OMRFConsistent n p s) :
    OMRFConsistent n p (update_edge_indicator n p s var1 var2 z log_accept u01) := by
  obtain ⟨hsym, hcast, hmiss, hres⟩ := hc
  have hne : var1 ≠ var2 := Nat.ne_of_lt h12
  have h1 : var1 < p := lt_trans h12 h2
  simp only [update_edge_indicator]
  by_cases hacc : Real.log u01 < log_accept
  · rw [if_pos hacc]
    refine ⟨?_, hcast, hmiss, ?_⟩
    · intro a b
      dsimp only
      split_ifs <;> first | rfl | tauto | exact hsym a b
    · intro i hi v hv
      have h := sym_write_product s var1 var2 hne h1 h2
        (if s.edgeIndicators var1 var2 = 0
          then s.pairwiseEffects var1 var2 + s.proposalSdPairwise var1 var2 * z else 0)
        ⟨hsym, hcast, hmiss, hres⟩ i v hi hv
      dsimp only
      rw [← h]
  · rw [if_neg hacc]
    exact ⟨hsym, hcast, hmiss, hres⟩

theorem init_graph_pair_sym {n p : ℕ} (s : OMRFState n p) (q : ℕ × ℕ) (d : Bool)
    (hsym : ∀ a b, s.pairwiseEffects a b = s.pairwiseEffects b a) :
    (∀ a b, (init_graph_pair n p s q d).pairwiseEffects a b
      = (init_graph_pair n p s q d).pairwiseEffects b a) := by
  intro a b
  simp only [init_graph_pair]
  cases d
  · simp only [Bool.false_eq_true, if_false]
    split_ifs <;> first | rfl | tauto | exact hsym a b
  · simp only [if_true]
    exact hsym a b

theorem init_graph_fold_props {n p : ℕ} (draws : ℕ → ℕ → Bool) :
    ∀ (L : List (ℕ × ℕ)) (s : OMRFState n p),
      (∀ a b, s.pairwiseEffects a b = s.pairwiseEffects b a) →
      ((∀ a b,
          (L.foldl (fun st q => init_graph_pair n p st q (draws q.1 q.2)) s).pairwiseEffects a b
            = (L.foldl (fun st q => init_graph_pair n p st q (draws q.1 q.2)) s).pairwiseEffects b a) ∧
        (L.foldl (fun st q => init_graph_pair n p st q (draws q.1 q.2)) s).observationsD
          = s.observationsD ∧
        (L.foldl (fun st q => init_graph_pair n p st q (draws q.1 q.2)) s).observations
          = s.observations ∧
        (L.foldl (fun st q => init_graph_pair n p st q (draws q.1 q.2)) s).missingIndex
          = s.missingIndex) := by
  intro L
  induction L with
  | nil => intro s hsym; exact ⟨hsym, rfl, rfl, rfl⟩
  | cons q rest ih =>
      intro s hsym
      have hstep := init_graph_pair_sym s q (draws q.1 q.2) hsym
      have h := ih (init_graph_pair n p s q (draws q.1 q.2)) hstep
      simp only [List.foldl_cons]
      exact ⟨h.1, h.2.1, h.2.2.1, h.2.2.2⟩

theorem init_graph_consistent {n p : ℕ} {s : OMRFState n p}
    (draws : ℕ → ℕ → Bool) (hc : OMRFConsistent n p s) :
    OMRFConsistent n p (init_graph n p s draws) := by
  obtain ⟨hsym, hcast, hmiss, hres⟩ := hc
  have h := init_graph_fold_props draws (upperPairs p) s hsym
  rw [init_graph]
  refine ⟨?_, ?_, ?_, ?_⟩
  · intro a b
    simp only [update_residual_matrix]
    exact h.1 a b
  · intro i v
    simp only [update_residual_matrix]
    rw [h.2.1, h.2.2.1]
    exact hcast i v
  · simp only [update_residual_matrix]
    rw [h.2.2.2]
    exact hmiss
  · intro i hi v hv
    simp only [update_residual_matrix]


theorem imputeStore_consistent {n p : ℕ} (s : OMRFState n p) (person vr : ℕ)
    (hvr : vr < p) (newv : ℤ) (hc : OMRFConsistent n p s) :
    OMRFConsistent n p (if newv = s.observations person vr then s else
      { s with
        observations := fun i v =>
          if i = person ∧ v = vr then newv else s.observations i v,
        observationsD := fun i v =>
          if i = person ∧ v = vr then (newv : ℝ) else s.observationsD i v,
        countsPerCategory := if s.isOrdinal vr then fun cat v =>
            if v = vr ∧ cat = s.observations person vr then s.countsPerCategory cat v - 1
            else if v = vr ∧ cat = newv then s.countsPerCategory cat v + 1
            else s.countsPerCategory cat v
          else s.countsPerCategory,
        blumeCapelStats := if s.isOrdinal vr then s.blumeCapelStats
          else fun row v =>
            if v = vr ∧ row = 0 then
              s.blumeCapelStats row v + (newv - s.observations person vr)
            else if v = vr ∧ row = 1 then
              s.blumeCapelStats row v
                + (newv * newv - s.observations person vr * s.observations person vr)
            else s.blumeCapelStats row v,
        residual := fun i v =>
          if i = person ∧ v < p then
            s.residual i v
              + ((newv - s.observations person vr : ℤ) : ℝ) * s.pairwiseEffects v vr
          else s.residual i v }) := by
  obtain ⟨hsym, hcast, hmiss, hres⟩ := hc
  by_cases hchange : newv = s.observations person vr
  · rw [if_pos hchange]
    exact ⟨hsym, hcast, hmiss, hres⟩
  · rw [if_neg hchange]
    refine ⟨hsym, ?_, hmiss, ?_⟩
    · intro i v
      dsimp only
      split_ifs with hiv
      · rfl
      · exact hcast i v
    · intro i hi v hv
      dsimp only
      by_cases hip : i = person
      · rw [if_pos ⟨hip, hv⟩]
        have hterm : ∀ k ∈ Finset.range p,
            (if i = person ∧ k = vr then (newv : ℝ) else s.observationsD i k)
              * s.pairwiseEffects k v
            = s.observationsD i k * s.pairwiseEffects k v
              + (if k = vr then
                  ((newv - s.observations person vr : ℤ) : ℝ) * s.pairwiseEffects k v
                else 0) := by
          intro k _
          rcases eq_or_ne k vr with rfl | hk
          · rw [if_pos ⟨hip, rfl⟩, if_pos rfl, hcast i k, hip]
            push_cast
            ring
          · rw [if_neg (by tauto), if_neg hk]
            ring
        rw [Finset.sum_congr rfl hterm, Finset.sum_add_distrib,
          Finset.sum_ite_eq' (Finset.range p) vr
            (fun k => ((newv - s.observations person vr : ℤ) : ℝ) * s.pairwiseEffects k v),
          if_pos (Finset.mem_range.mpr hvr), ← hres i hi v hv, hsym vr v]
      · rw [if_neg (by tauto)]
        have hterm : ∀ k ∈ Finset.range p,
            (if i = person ∧ k = vr then (newv : ℝ) else s.observationsD i k)
              * s.pairwiseEffects k v
            = s.observationsD i k * s.pairwiseEffects k v := by
          intro k _
          rw [if_neg (by tauto)]
        rw [Finset.sum_congr rfl hterm, ← hres i hi v hv]

theorem imputeEntry_consistent {n p : ℕ} {s : OMRFState n p} (u01 : ℝ)
    (q : ℕ × ℕ) (hq : q.2 < p) (hc : OMRFConsistent n p s) :
    OMRFConsistent n p (imputeEntry n p s u01 q) :=
  imputeStore_consistent s q.1 q.2 hq _ hc

theorem impute_fold_consistent {n p : ℕ} (us : ℕ → ℝ) :
    ∀ (L : List (ℕ × ℕ)) (sk : OMRFState n p × ℕ),
      OMRFConsistent n p sk.1 → (∀ q ∈ L, q.2 < p) →
      OMRFConsistent n p
        ((L.foldl (fun (ac : OMRFState n p × ℕ) q =>
          (imputeEntry n p ac.1 (us ac.2) q, ac.2 + 1)) sk).1) := by
  intro L
  induction L with
  | nil => intro sk hc _; exact hc
  | cons q rest ih =>
      intro sk hc hval
      simp only [List.foldl_cons]
      exact ih (imputeEntry n p sk.1 (us sk.2) q, sk.2 + 1)
        (imputeEntry_consistent (us sk.2) q (hval q (List.mem_cons_self q rest)) hc)
        (fun r hr => hval r (List.mem_cons_of_mem q hr))

theorem impute_missing_consistent {n p : ℕ} {s : OMRFState n p} (us : ℕ → ℝ)
    (hc : OMRFConsistent n p s) :
    OMRFConsistent n p (impute_missing n p s us) := by
  rw [impute_missing]
  split_ifs with hemp
  · exact hc
  · have h := impute_fold_consistent us s.missingIndex (s, 0) hc hc.2.2.1
    exact ⟨h.1, h.2.1, h.2.2.1, h.2.2.2⟩

theorem OMRFStep_consistent {n p : ℕ} {s t : OMRFState n p}
    (hst : OMRFStep n p s t) (hc : OMRFConsistent n p s) :
    OMRFConsistent n p t := by
  cases hst with
  | pairwise var1 var2 h1 h2 lp z u01 =>
      exact update_pairwise_effect_consistent var1 var2 h1 h2 lp z u01 hc
  | edge var1 var2 h1 h2 z la u01 =>
      exact update_edge_indicator_consistent var1 var2 h1 h2 z la u01 hc
  | graphInit draws => exact init_graph_consistent draws hc
  | impute us => exact impute_missing_consistent us hc
  | tune var1 var2 h1 h2 lp z u01 w =>
      exact tune_pairwise_pair_consistent var1 var2 h1 h2 lp z u01 w hc

/-- C4: in every OMRF state reachable from a consistent initial state by
the state-mutating operations (pairwise-effect RWM update, edge-indicator
move, graph initialization, missing-data imputation, and the warmup
proposal-sd tuning sweep), the residual matrix equals
observations_double · pairwise_effects. -/
theorem residual_matrix_invariant {n p : ℕ} {s0 s : OMRFState n p}
    (h0 : OMRFConsistent n p s0)
    (hreach : Relation.ReflTransGen (OMRFStep n p) s0 s) :
    ∀ i, i < n → ∀ v, v < p →
      s.residual i v
        = ∑ k ∈ Finset.range p, s.observationsD i k * s.pairwiseEffects k v := by
  have h : OMRFConsistent n p s := by
    induction hreach with
    | refl => exact h0
    | tail _ hstep ih => exact OMRFStep_consistent hstep ih
  exact h.2.2.2


/-- An all-zero one-person, one-variable consistent OMRF state. -/
noncomputable def zeroOMRF : OMRFState 1 1 :=
  { observations := fun _ _ => 0, observationsD := fun _ _ => 0,
    residual := fun _ _ => 0, mainEffects := fun _ _ => 0,
    pairwiseEffects := fun _ _ => 0, edgeIndicators := fun _ _ => 0,
    proposalSdPairwise := fun _ _ => 1, pairwiseStats := fun _ _ => 0,
    countsPerCategory := fun _ _ => 0, blumeCapelStats := fun _ _ => 0,
    isOrdinal := fun _ => true, numCats := fun _ => 1,
    baselineCat := fun _ => 0, missingIndex := [] }

/-- Witness for the C4 invariant: from the zero state, one
graph-initialization step reaches a state whose residual matrix is the
product of observations and pairwise effects. -/
theorem residual_matrix_invariant_witness :
    OMRFConsistent 1 1 zeroOMRF ∧
    (init_graph 1 1 zeroOMRF (fun _ _ => false)).residual 0 0
      = ∑ k ∈ Finset.range 1,
          (init_graph 1 1 zeroOMRF (fun _ _ => false)).observationsD 0 k
            * (init_graph 1 1 zeroOMRF (fun _ _ => false)).pairwiseEffects k 0 := by
  have h0 : OMRFConsistent 1 1 zeroOMRF := by
    refine ⟨fun a b => rfl, fun i v => by simp [zeroOMRF],
      fun q hq => by simp [zeroOMRF] at hq, ?_⟩
    intro i hi v hv
    simp [zeroOMRF]
  exact ⟨h0, residual_matrix_invariant h0
    (Relation.ReflTransGen.single
      (OMRFStep.graphInit zeroOMRF (fun _ _ => false)))
    0 one_pos 0 one_pos⟩

/-!
## C2: Blume-Capel missing-data imputation (src/src/models/omrf/omrf_model.cpp, impute_missing)
-/

/-- The cumulative category weights the specification prescribes for
Blume-Capel imputation (built from the claim wording, for comparison
with `bcImputeCum`): numerator(c) = exp(θ(c) + (c − b)·r) with
θ(c) = lin·(c−b) + quad·(c−b)², for c = 0..K. -/
noncomputable def bcImputeCumSpec (lin quad : ℝ) (ref : ℤ) (r : ℝ)
    (num_cats : ℕ) : List ℝ :=
  (List.range (num_cats + 1)).map fun cat =>
    ∑ c ∈ Finset.range (cat + 1),
      Real.exp (lin * ((c : ℝ) - (ref : ℝ)) + quad * ((c : ℝ) - (ref : ℝ)) ^ 2
        + ((c : ℝ) - (ref : ℝ)) * r)

/-- Inverse-transform sampling from the specification's exact Blume-Capel
conditional; the result is the sampled category (to be stored as-is). -/
noncomputable def bcImputeSampleSpec (lin quad : ℝ) (ref : ℤ) (r : ℝ)
    (num_cats : ℕ) (u01 : ℝ) : ℕ :=
  sampleFromCumulative
    (u01 * ((bcImputeCumSpec lin quad ref r num_cats).getLast?.getD 0))
    (bcImputeCumSpec lin quad ref r num_cats)

/-- A one-person, one-variable Blume-Capel state: three categories
(num_cats = 2), baseline category 1, all parameters and residuals zero
(so the exact conditional is uniform on {0, 1, 2}), observed value 0,
entry (0,0) recorded as missing. -/
noncomputable def s2cex : OMRFState 1 1 :=
  { zeroOMRF with
    isOrdinal := fun _ => false
    numCats := fun _ => 2
    baselineCat := fun _ => 1
    missingIndex := [(0, 0)] }

theorem s2cex_bcImputeCum : bcImputeCum 0 0 1 0 2 = [2, 3, 4] := by
  simp [bcImputeCum, List.range_succ, Finset.sum_const]
  norm_num

theorem s2cex_bcImputeCumSpec : bcImputeCumSpec 0 0 1 0 2 = [1, 2, 3] := by
  simp [bcImputeCumSpec, List.range_succ, Finset.sum_const]
  norm_num

/-- C2: at a concrete Blume-Capel missing entry whose exact conditional is
uniform on the categories {0,1,2} (baseline 1, all parameters and the
residual zero) and uniform draw 2/5, `impute_missing` stores −1 — the
spurious `exp(lin·ref + quad·ref²)` seed of the cumulative weights tilts
the draw toward index 0 and the sampled index is then shifted by the
baseline before storing — while the exact conditional of the claim
samples category 1; −1 is not even a category (0 ≤ c ≤ 2 fails). -/
theorem impute_missing_blume_capel_divergence :
    (impute_missing 1 1 s2cex (fun _ => 2 / 5)).observations 0 0 = -1 ∧
    bcImputeSampleSpec 0 0 1 0 2 (2 / 5) = 1 ∧
    ¬((-1 : ℤ) = 1) ∧ ¬(0 ≤ (-1 : ℤ)) := by
  refine ⟨?_, ?_, by norm_num, by norm_num⟩
  · have hcum := s2cex_bcImputeCum
    simp only [impute_missing, s2cex, zeroOMRF, imputeEntry]
    norm_num [hcum, sampleFromCumulative]
  · have hcum := s2cex_bcImputeCumSpec
    simp only [bcImputeSampleSpec]
    norm_num [hcum, sampleFromCumulative]


/-!
## C5: fixed-size vectorized output (src/src/models/omrf/omrf_model.cpp, get_full_vectorized_parameters)
-/

/-- Number of main-effect parameters: `num_cats v` per ordinal variable,
2 (linear, quadratic) per Blume-Capel variable. -/
def num_main (p : ℕ) (isOrd : ℕ → Bool) (ncats : ℕ → ℕ) : ℕ :=
  ∑ v ∈ Finset.range p, (if isOrd v then ncats v else 2)

/-- `OMRFModel::get_full_vectorized_parameters`: all main effects followed
by ALL pairwise effects (upper triangle, row by row), including the
entries of inactive edges. -/
noncomputable def get_full_vectorized_parameters (n p : ℕ)
    (s : OMRFState n p) : List ℝ :=
  ((List.range p).bind fun v =>
    if s.isOrdinal v then (List.range (s.numCats v)).map fun c => s.mainEffects v c
    else [s.mainEffects v 0, s.mainEffects v 1])
  ++ (upperPairs p).map fun q => s.pairwiseEffects q.1 q.2

/-- The invariant claimed by the specification: pairwise effects of
inactive (indicator 0) edges are exactly zero. -/
def inactiveZero (n p : ℕ) (s : OMRFState n p) : Prop :=
  ∀ v1 v2, v1 < p → v2 < p → v1 ≠ v2 →
    s.edgeIndicators v1 v2 = 0 → s.pairwiseEffects v1 v2 = 0

theorem list_range_map_sum (f : ℕ → ℕ) :
    ∀ k, ((List.range k).map f).sum = ∑ i ∈ Finset.range k, f i := by
  intro k
  induction k with
  | zero => simp
  | succ k ih =>
      rw [List.range_succ, List.map_append, List.sum_append, Finset.sum_range_succ, ih]
      simp

theorem upperPairs_length (p : ℕ) : (upperPairs p).length = p * (p - 1) / 2 := by
  have h1 : (upperPairs p).length = ∑ v ∈ Finset.range p, (p - (v + 1)) := by
    rw [upperPairs, List.length_bind]
    have : ∀ x, ((fun v1 => (List.range' (v1 + 1) (p - (v1 + 1))).map
        fun v2 => (v1, v2)) x).length = p - (x + 1) := by
      intro x
      rw [List.length_map, List.length_range']
    have h2 : (List.range p).map
        (List.length ∘ fun v1 => (List.range' (v1 + 1) (p - (v1 + 1))).map fun v2 => (v1, v2))
        = (List.range p).map fun v => p - (v + 1) := by
      refine List.map_congr_left fun x _ => ?_
      simp [List.length_range']
    rw [h2, list_range_map_sum]
  rw [h1]
  have h3 : ∑ v ∈ Finset.range p, (p - (v + 1)) = ∑ v ∈ Finset.range p, v := by
    have := Finset.sum_range_reflect (fun j => j) p
    rw [← this]
    exact Finset.sum_congr rfl fun v hv => by omega
  rw [h3, Finset.sum_range_id]

theorem mem_upperPairs {p : ℕ} {q : ℕ × ℕ} (h : q ∈ upperPairs p) :
    q.1 < q.2 ∧ q.2 < p := by
  simp only [upperPairs, List.mem_bind, List.mem_map, List.mem_range] at h
  obtain ⟨v1, hv1, v2, hv2, rfl⟩ := h
  rw [List.mem_range'_1] at hv2
  exact ⟨by omega, by omega⟩

/-- C5 (amended): `get_full_vectorized_parameters` always returns
`num_main + p(p−1)/2` entries — a length independent of the indicator
configuration — and, in any state where inactive pairwise effects are
zero (and indicators are symmetric), its pairwise block reads 0 at every
indicator-0 pair; that zero-for-inactive predicate is preserved by
`update_pairwise_effect` and `update_edge_indicator` (but not by the
warmup sweep `tune_proposal_sd`, which updates every pair). -/
theorem get_full_vectorized_parameters_spec {n p : ℕ} (s : OMRFState n p)
    (hind : ∀ a b, s.edgeIndicators a b = s.edgeIndicators b a)
    (hzero : inactiveZero n p s) :
    (get_full_vectorized_parameters n p s).length
      = num_main p s.isOrdinal s.numCats + p * (p - 1) / 2 ∧
    get_full_vectorized_parameters n p s
      = ((List.range p).bind fun v =>
          if s.isOrdinal v then (List.range (s.numCats v)).map fun c => s.mainEffects v c
          else [s.mainEffects v 0, s.mainEffects v 1])
        ++ (upperPairs p).map (fun q =>
            if s.edgeIndicators q.1 q.2 = 0 then 0 else s.pairwiseEffects q.1 q.2) ∧
    (∀ var1 var2 lp z u01, var1 < var2 → var2 < p →
      (∀ a b, (update_pairwise_effect n p s var1 var2 lp z u01).edgeIndicators a b
        = (update_pairwise_effect n p s var1 var2 lp z u01).edgeIndicators b a) ∧
      inactiveZero n p (update_pairwise_effect n p s var1 var2 lp z u01)) ∧
    (∀ var1 var2 z la u01, var1 < var2 → var2 < p →
      (∀ a b, (update_edge_indicator n p s var1 var2 z la u01).edgeIndicators a b
        = (update_edge_indicator n p s var1 var2 z la u01).edgeIndicators b a) ∧
      inactiveZero n p (update_edge_indicator n p s var1 var2 z la u01)) := by
  refine ⟨?_, ?_, ?_, ?_⟩
  · rw [get_full_vectorized_parameters, List.length_append, List.length_map,
      upperPairs_length, List.length_bind]
    congr 1
    have h2 : (List.range p).map
        (List.length ∘ fun v => if s.isOrdinal v
          then (List.range (s.numCats v)).map fun c => s.mainEffects v c
          else [s.mainEffects v 0, s.mainEffects v 1])
        = (List.range p).map fun v => if s.isOrdinal v then s.numCats v else 2 := by
      refine List.map_congr_left fun x _ => ?_
      by_cases hx : s.isOrdinal x <;> simp [hx]
    rw [h2, list_range_map_sum, num_main]
  · rw [get_full_vectorized_parameters]
    congr 1
    refine List.map_congr_left fun q hq => ?_
    obtain ⟨h12, h2p⟩ := mem_upperPairs hq
    by_cases hq0 : s.edgeIndicators q.1 q.2 = 0
    · rw [if_pos hq0, hzero q.1 q.2 (lt_trans h12 h2p) h2p (Nat.ne_of_lt h12) hq0]
    · rw [if_neg hq0]
  · intro var1 var2 lp z u01 h12 h2p
    rw [update_pairwise_effect]
    split_ifs with hoff
    · exact ⟨hind, hzero⟩
    · constructor
      · intro a b
        simp only [apply_pairwise_value]
        exact hind a b
      · intro v1 v2 hv1 hv2 hne h0
        simp only [apply_pairwise_value] at h0 ⊢
        split_ifs with hc1 hc2
        · exfalso
          obtain ⟨rfl, rfl⟩ := hc1
          exact hoff ((hind v1 v2).symm.trans h0)
        · exfalso
          obtain ⟨rfl, rfl⟩ := hc2
          exact hoff h0
        · exact hzero v1 v2 hv1 hv2 hne h0
  · intro var1 var2 z la u01 h12 h2p
    simp only [update_edge_indicator]
    by_cases hacc : Real.log u01 < la
    · rw [if_pos hacc]
      constructor
      · intro a b
        dsimp only
        split_ifs with hc1 hc2 <;> first | rfl | tauto
      · intro v1 v2 hv1 hv2 hne h0
        dsimp only at h0 ⊢
        by_cases hc : (v1 = var2 ∧ v2 = var1) ∨ (v1 = var1 ∧ v2 = var2)
        · rw [if_pos hc] at h0
          -- the indicator flipped to 0, so the edge was on and the move
          -- removed it: the proposed state written to the pair is 0
          have hone : s.edgeIndicators var1 var2 = 1 := by omega
          have hprop : (if s.edgeIndicators var1 var2 = 0
              then s.pairwiseEffects var1 var2 + s.proposalSdPairwise var1 var2 * z
              else 0) = 0 := by
            rw [if_neg (by rw [hone]; norm_num)]
          rcases hc with ⟨rfl, rfl⟩ | ⟨rfl, rfl⟩
          · rw [if_pos ⟨rfl, rfl⟩]
            exact hprop
          · rw [if_neg (fun h => hne h.1), if_pos ⟨rfl, rfl⟩]
            exact hprop
        · rw [if_neg hc] at h0
          rw [if_neg (fun h => hc (Or.inl h)), if_neg (fun h => hc (Or.inr h))]
          exact hzero v1 v2 hv1 hv2 hne h0
    · rw [if_neg hacc]
      exact ⟨hind, hzero⟩


/-- A two-variable state with no active edges, zero pairwise effects,
unit proposal sds: the inactive-zero predicate holds. -/
noncomputable def s5cex : OMRFState 1 2 :=
  { observations := fun _ _ => 0
    observationsD := fun _ _ => 0
    residual := fun _ _ => 0
    mainEffects := fun _ _ => 0
    pairwiseEffects := fun _ _ => 0
    edgeIndicators := fun _ _ => 0
    proposalSdPairwise := fun _ _ => 1
    pairwiseStats := fun _ _ => 0
    countsPerCategory := fun _ _ => 0
    blumeCapelStats := fun _ _ => 0
    isOrdinal := fun _ => true
    numCats := fun _ => 1
    baselineCat := fun _ => 0
    missingIndex := [] }

/-- C5 is false as stated: one pair update of the warmup sweep
`tune_proposal_sd` at the inactive pair (0,1) of `s5cex` — here with the
constant log-pseudoposterior, normal draw 1 and the legitimate uniform
draw 1/2 (for any log-pseudoposterior the acceptance probability
min(1, exp Δ) is strictly positive, so a uniform draw below it exists) —
is accepted, writes pairwise effect 1 while the indicator stays 0, and
`get_full_vectorized_parameters` then returns 1 (not 0) at the pairwise
entry of the inactive pair (0,1). -/
theorem get_full_inactive_zero_cex :
    (0 : ℝ) < 1 / 2 ∧ (1 / 2 : ℝ) < 1 ∧
    inactiveZero 1 2 s5cex ∧
    (tune_pairwise_pair 1 2 s5cex 0 1 (fun _ => 0) 1 (1 / 2) 1).edgeIndicators 0 1 = 0 ∧
    (get_full_vectorized_parameters 1 2
      (tune_pairwise_pair 1 2 s5cex 0 1 (fun _ => 0) 1 (1 / 2) 1)).getD 2 0 = 1 := by
  refine ⟨by norm_num, by norm_num, fun v1 v2 _ _ _ _ => rfl, ?_, ?_⟩
  · simp only [tune_pairwise_pair, apply_pairwise_value]
    rfl
  · have hacc : (1 / 2 : ℝ) < min 1 (Real.exp ((0 : ℝ) - 0)) := by
      norm_num [Real.exp_zero]
    simp only [tune_pairwise_pair, rwm_sampler, apply_pairwise_value, s5cex,
      get_full_vectorized_parameters, upperPairs]
    rw [if_pos hacc]
    norm_num [List.range_succ, List.range']

/-- Witness for the amended C5 statement at the concrete state `s5cex`:
the vector has the fixed length 3 = num_main + p(p-1)/2, and an
edge-indicator move preserves the inactive-zero predicate. -/
theorem get_full_vectorized_parameters_spec_witness :
    (get_full_vectorized_parameters 1 2 s5cex).length = 3 ∧
    inactiveZero 1 2 (update_edge_indicator 1 2 s5cex 0 1 1 0 1) := by
  have h := get_full_vectorized_parameters_spec s5cex (fun a b => rfl)
    (fun v1 v2 _ _ _ _ => rfl)
  constructor
  · rw [h.1]
    norm_num [num_main, s5cex, Finset.sum_range_succ]
  · exact (h.2.2.2 0 1 1 0 1 one_pos one_lt_two).2


/-!
## C1: rank-1 Cholesky update/downdate and the GGM edge move
(src/src/models/ggm/cholupdate.cpp, src/src/models/ggm/ggm_model.cpp)

`chol_up` works on the flat column-major buffer of the n×n factor R
(entry (i,j) at flat index n·j+i); the strictly-lower slots of the first
two columns (flat 2..n−1 and n+2..2n−1) are scratch storage for the
rotations.  The downdate failure path writes −2.0 into R[1] (entry (1,0))
when n > 1 and returns early, leaving the buffer partially modified and
the scratch unzeroed; the Bool in the result records success — the C code
signals only through the buffer, which is why the Bool is ignored by the
`cholesky_update` / `cholesky_downdate` wrappers below, exactly as their
C++ counterparts ignore it. -/

/-- `hypote` (mgcv): overflow-stable `sqrt(x² + y²)` — the rescaling by
the larger magnitude is exact in ℝ. -/
noncomputable def hypote (x y : ℝ) : ℝ :=
  let a := max |x| |y|
  let b := min |x| |y|
  if a = 0 then b else a * Real.sqrt (1 + (b / a) ^ 2)

/-- Loop state of `chol_up`: the buffer, the rotation computed for the
previous column, and the not-yet-failed flag. -/
structure CholUpSt where
  R : ℕ → ℝ
  c0 : ℝ
  s0 : ℝ
  ok : Bool

/-- Apply the stored rotations of columns 1..j−1 (slots 2+k / n+2+k) to
the running element z and column j of the buffer. -/
noncomputable def applyStored (up : Bool) (n j : ℕ) (zR : ℝ × (ℕ → ℝ)) :
    ℝ × (ℕ → ℝ) :=
  (List.range (j - 1)).foldl (fun zR k =>
    let z := zR.1
    let R := zR.2
    let c := R (2 + k)
    let s := R (n + 2 + k)
    let x := R (n * j + k)
    (c * z - s * x,
     updf R (n * j + k) (if up then s * z + c * x else -s * z + c * x))) zR

/-- The pivot step of a downdate column: fails when |z / R(j,j)| ≥ 1,
writing the −2.0 sentinel into R[1] (when n > 1) and keeping the buffer
as-is otherwise; on success the clamped hyperbolic rotation is applied
to the diagonal entry. -/
noncomputable def downdatePivot (n : ℕ) (eps z1 : ℝ) (j : ℕ) (R1 : ℕ → ℝ)
    (c0p s0p : ℝ) : CholUpSt :=
  let x := R1 (n * j + j)
  let z0 := z1 / x
  if 1 ≤ |z0| then
    ⟨if 1 < n then updf R1 1 (-2.0) else R1, c0p, s0p, false⟩
  else
    let z0c := if 1 - eps < z0 then 1 - eps else z0
    let c0 := 1 / Real.sqrt (1 - z0c ^ 2)
    let s0 := c0 * z0c
    ⟨updf R1 (n * j + j) (-s0 * z1 + c0 * x), c0, s0, true⟩

/-- One column of `chol_up`: stored rotations, the previous column's
rotation (applied and stored), then the new pivot rotation. -/
noncomputable def cholUpColumn (up : Bool) (n : ℕ) (eps u_j : ℝ) (j : ℕ)
    (st : CholUpSt) : CholUpSt :=
  if st.ok = false then st
  else
    let zR := applyStored up n j (u_j, st.R)
    let z1 := if j = 0 then zR.1
      else st.c0 * zR.1 - st.s0 * zR.2 (n * j + (j - 1))
    let R1 := if j = 0 then zR.2
      else
        let x := zR.2 (n * j + (j - 1))
        let Rx := updf zR.2 (n * j + (j - 1))
          (if up then st.s0 * zR.1 + st.c0 * x else -st.s0 * zR.1 + st.c0 * x)
        if j < n - 1 then updf (updf Rx (2 + (j - 1)) st.c0) (n + 2 + (j - 1)) st.s0
        else Rx
    if up then
      let x := R1 (n * j + j)
      let z0 := hypote z1 x
      let c0 := x / z0
      let s0 := z1 / z0
      ⟨updf R1 (n * j + j) (s0 * z1 + c0 * x), c0, s0, true⟩
    else
      downdatePivot n eps z1 j R1 st.c0 st.s0

/-- `chol_up` (mgcv, as vendored in cholupdate.cpp): rank-1 Cholesky
update (up) or downdate (¬up); on success the scratch slots are zeroed,
on failure the partially-modified buffer is returned as-is. -/
noncomputable def chol_up (R u : ℕ → ℝ) (n : ℕ) (up : Bool) (eps : ℝ) :
    (ℕ → ℝ) × Bool :=
  let final := (List.range n).foldl
    (fun st j => cholUpColumn up n eps (u j) j st) ⟨R, 0, 0, true⟩
  if final.ok then
    (fun idx => if (2 ≤ idx ∧ idx < n) ∨ (n + 2 ≤ idx ∧ idx < 2 * n) then 0
      else final.R idx, true)
  else (final.R, false)

/-- `cholesky_update(R, u, eps = 1e-12)`: the wrapper discards the
success information (there is none in C — the sentinel lives in R). -/
noncomputable def cholesky_update (R u : ℕ → ℝ) (n : ℕ) : ℕ → ℝ :=
  (chol_up R u n true (1e-12)).1

/-- `cholesky_downdate(R, u, eps = 1e-12)`. -/
noncomputable def cholesky_downdate (R u : ℕ → ℝ) (n : ℕ) : ℕ → ℝ :=
  (chol_up R u n false (1e-12)).1

/-- Entry (i, i+d) of `arma::inv(arma::trimatu(R))` for the flat buffer R,
by back substitution (reads only the upper triangle). -/
noncomputable def triInvAux (R : ℕ → ℝ) (n : ℕ) : ℕ → ℕ → ℝ
  | 0, i => 1 / R (n * i + i)
  | d + 1, i =>
      -(∑ t ∈ Finset.range (d + 1),
          R (n * (i + 1 + t) + i) * triInvAux R n (d - t) (i + 1 + t))
        / R (n * i + i)
  termination_by d i => d
  decreasing_by omega

/-- The upper-triangular inverse as a two-index matrix. -/
noncomputable def triInv (R : ℕ → ℝ) (n : ℕ) (i k : ℕ) : ℝ :=
  if i ≤ k ∧ k < n then triInvAux R n (k - i) i else 0

structure GGMState (p : ℕ) where
  precision : ℕ → ℕ → ℝ
  cholesky : ℕ → ℝ
  inv_cholesky : ℕ → ℕ → ℝ
  covariance : ℕ → ℕ → ℝ

/-- `GGMModel::cholesky_update_after_edge`: with v1 = {0, −1} and
v2 = {ω_ij_old − prop_ij, (ω_jj_old − prop_jj)/2} scattered to positions
i, j, update with u1 = (vf1+vf2)/√2, downdate with u2 = (vf1−vf2)/√2,
then rebuild the triangular inverse and the covariance — with no check
of the downdate's failure signal. -/
noncomputable def cholesky_update_after_edge (p : ℕ) (s : GGMState p)
    (omega_ij_old omega_jj_old prop_ij prop_jj : ℝ) (i j : ℕ) : GGMState p :=
  let v2_0 := omega_ij_old - prop_ij
  let v2_1 := (omega_jj_old - prop_jj) / 2
  let vf1 : ℕ → ℝ := fun k => if k = j then -1 else 0
  let vf2 : ℕ → ℝ := fun k => if k = j then v2_1 else if k = i then v2_0 else 0
  let u1 := fun k => (vf1 k + vf2 k) / Real.sqrt 2
  let u2 := fun k => (vf1 k - vf2 k) / Real.sqrt 2
  let R2 := cholesky_downdate (cholesky_update s.cholesky u1 p) u2 p
  { s with
    cholesky := R2
    inv_cholesky := triInv R2 p
    covariance := fun a b =>
      ∑ k ∈ Finset.range p, triInv R2 p a k * triInv R2 p b k }

/-- The accept branch of `GGMModel::update_edge_parameter` (and of the
edge-off path of `update_edge_indicator_parameter_pair`): the precision
matrix is overwritten with the proposal at (i,j), (j,i), (j,j) and the
factor/inverse/covariance are rebuilt — unconditionally. -/
noncomputable def ggm_accept_edge_move (p : ℕ) (s : GGMState p) (i j : ℕ)
    (omega_prop_q1q omega_prop_qq : ℝ) : GGMState p :=
  let omega_ij_old := s.precision i j
  let omega_jj_old := s.precision j j
  let s1 : GGMState p := { s with precision := fun a b =>
    (if a = j ∧ b = j then omega_prop_qq
     else if (a = i ∧ b = j) ∨ (a = j ∧ b = i) then omega_prop_q1q
     else s.precision a b) }
  cholesky_update_after_edge p s1 omega_ij_old omega_jj_old
    omega_prop_q1q omega_prop_qq i j

theorem downdatePivot_sentinel (n : ℕ) (eps z1 : ℝ) (j : ℕ) (R1 : ℕ → ℝ)
    (c0p s0p : ℝ) (hn : 1 < n) :
    (downdatePivot n eps z1 j R1 c0p s0p).ok = false →
      (downdatePivot n eps z1 j R1 c0p s0p).R 1 = -2 := by
  simp only [downdatePivot]
  by_cases hfail : 1 ≤ |z1 / R1 (n * j + j)|
  · rw [if_pos hfail]
    intro _
    dsimp only
    rw [if_pos hn, updf_same]
    norm_num
  · rw [if_neg hfail]
    intro hcontra
    simp at hcontra

theorem cholUpColumn_sentinel (n : ℕ) (eps uj : ℝ) (j : ℕ) (hn : 1 < n)
    (st : CholUpSt) (h : st.ok = false → st.R 1 = -2) :
    (cholUpColumn false n eps uj j st).ok = false →
      (cholUpColumn false n eps uj j st).R 1 = -2 := by
  rw [cholUpColumn]
  by_cases hok : st.ok = false
  · rw [if_pos hok]
    exact fun _ => h hok
  · rw [if_neg hok]
    simp only [Bool.false_eq_true, if_false]
    exact downdatePivot_sentinel n eps _ j _ st.c0 st.s0 hn

theorem cholUp_fold_sentinel (u : ℕ → ℝ) (n : ℕ) (eps : ℝ) (hn : 1 < n) :
    ∀ (L : List ℕ) (st : CholUpSt), (st.ok = false → st.R 1 = -2) →
      ((L.foldl (fun st j => cholUpColumn false n eps (u j) j st) st).ok = false →
        (L.foldl (fun st j => cholUpColumn false n eps (u j) j st) st).R 1 = -2) := by
  intro L
  induction L with
  | nil => intro st h; exact h
  | cons j rest ih =>
      intro st h
      simp only [List.foldl_cons]
      exact ih (cholUpColumn false n eps (u j) j st)
        (cholUpColumn_sentinel n eps (u j) j hn st h)

/-- C1 (amended): the downdate path of `chol_up` reports failure by
writing −2.0 into R[1] (flat entry (1,0)) when n > 1 and aborting, but
the GGM edge-move accept path never inspects this signal: for every
state and proposal the accepted precision values stay in the precision
matrix, and the factor, inverse and covariance are rebuilt from whatever
buffer the (possibly failed) downdate left behind. -/
theorem cholesky_downdate_failure_ignored (R u : ℕ → ℝ) (n : ℕ) (eps : ℝ)
    (hn : 1 < n) (hfail : (chol_up R u n false eps).2 = false) :
    (chol_up R u n false eps).1 1 = -2 ∧
    (∀ (p : ℕ) (s : GGMState p) (i j : ℕ) (wij wjj : ℝ), i ≠ j →
      (ggm_accept_edge_move p s i j wij wjj).precision j j = wjj ∧
      (ggm_accept_edge_move p s i j wij wjj).precision i j = wij) := by
  constructor
  · rw [chol_up] at hfail ⊢
    have hsent := cholUp_fold_sentinel u n eps hn (List.range n) ⟨R, 0, 0, true⟩
      (fun hc => absurd hc (by simp))
    by_cases hok : ((List.range n).foldl
        (fun st j => cholUpColumn false n eps (u j) j st) ⟨R, 0, 0, true⟩).ok
    · rw [if_pos hok] at hfail
      exact absurd hfail (by simp)
    · rw [if_neg hok] at hfail ⊢
      exact hsent (Bool.not_eq_true _ ▸ (by simpa using hok))
  · intro p s i j wij wjj hij
    constructor
    · show (if j = j ∧ j = j then wjj
        else if (j = i ∧ j = j) ∨ (j = j ∧ j = i) then wij
        else s.precision j j) = wjj
      rw [if_pos ⟨rfl, rfl⟩]
    · show (if i = j ∧ j = j then wjj
        else if (i = i ∧ j = j) ∨ (i = j ∧ j = i) then wij
        else s.precision i j) = wij
      rw [if_neg (fun hc => hij hc.1), if_pos (Or.inl ⟨rfl, rfl⟩)]


/-- The 2×2 identity factor in the flat buffer. -/
noncomputable def exIdR : ℕ → ℝ := fun k => if k = 0 ∨ k = 3 then 1 else 0

/-- Downdate vector (0, 1): downdating I by it leaves the singular
target diag(1, 0), so the pivot of column 1 fails. -/
noncomputable def exFailU : ℕ → ℝ := fun k => if k = 1 then 1 else 0

theorem exFail_eval : (chol_up exIdR exFailU 2 false (1e-12)).2 = false := by
  have h1 : Real.sqrt 1 = 1 := Real.sqrt_one
  simp only [chol_up, List.range_succ, List.range_zero, List.nil_append,
    List.cons_append, List.foldl_nil, List.foldl_cons, cholUpColumn,
    applyStored, downdatePivot, exIdR, exFailU, updf]
  norm_num [h1, updf, exIdR, exFailU]


/-- A 2-variable GGM state with identity precision, factor, inverse and
covariance. -/
noncomputable def exGGM : GGMState 2 :=
  { precision := fun a b => if a = b then 1 else 0
    cholesky := exIdR
    inv_cholesky := fun a b => if a = b then 1 else 0
    covariance := fun a b => if a = b then 1 else 0 }

/-- The update vector of `cholesky_update_after_edge` at `exGGM` for the
move (i,j) = (0,1), proposal (0, −1): vf1 + vf2 = 0. -/
noncomputable def exU1 : ℕ → ℝ := fun _ => 0

/-- The downdate vector of the same move: (vf1 − vf2)/√2 = (0, −2/√2). -/
noncomputable def exU2 : ℕ → ℝ := fun k => if k = 1 then -2 / Real.sqrt 2 else 0

/-- The factor after the internal rank-1 update (still the identity). -/
noncomputable def exR1 : ℕ → ℝ := cholesky_update exIdR exU1 2

/-- C1 is false in its caller half: at `exGGM`, the accepted edge move
(0,1) with proposal (ω_ij, ω_jj) = (0, −1) drives the maintained factor
through a downdate whose target R₁ᵀR₁ − u₂u₂ᵀ has (1,1) entry −1 (not
positive definite); `chol_up` duly signals failure, yet the caller keeps
the mutated precision matrix — precision(1,1) becomes −1 although it was
1 before the move — and stores the sentinel-bearing factor. -/
theorem cholesky_downdate_failure_not_rejected_cex :
    ((∑ k ∈ Finset.range 2, exR1 (2 + k) * exR1 (2 + k)) - exU2 1 * exU2 1 = -1) ∧
    (chol_up exR1 exU2 2 false (1e-12)).2 = false ∧
    (ggm_accept_edge_move 2 exGGM 0 1 0 (-1)).cholesky 1 = -2 ∧
    (ggm_accept_edge_move 2 exGGM 0 1 0 (-1)).precision 1 1 = -1 ∧
    exGGM.precision 1 1 = 1 ∧ ((-1 : ℝ) ≠ 1) := by
  have h1 : Real.sqrt 1 = 1 := Real.sqrt_one
  have h2 : (0:ℝ) < Real.sqrt 2 := Real.sqrt_pos.mpr (by norm_num)
  have h2sq : Real.sqrt 2 * Real.sqrt 2 = 2 := Real.mul_self_sqrt (by norm_num)
  have hsqrt2_le : Real.sqrt 2 ≤ 2 := by nlinarith
  have h14 : (1:ℝ) ≤ 2 / Real.sqrt 2 := by
    rw [le_div_iff h2]
    nlinarith
  have hU2sq : (-2 / Real.sqrt 2) * (-2 / Real.sqrt 2) = 2 := by
    field_simp
  have hexR1 : ∀ m, exR1 m = exIdR m := by
    intro m
    simp only [exR1, cholesky_update, chol_up, List.range_succ, List.range_zero,
      List.nil_append, List.cons_append, List.foldl_nil, List.foldl_cons,
      cholUpColumn, applyStored, downdatePivot, hypote, exIdR, exU1, updf]
    norm_num [h1, updf, exIdR]
    split_ifs <;> first | rfl | omega
  refine ⟨?_, ?_, ?_, ?_, by norm_num [exGGM], by norm_num⟩
  · rw [Finset.sum_range_succ, Finset.sum_range_one, hexR1 2, hexR1 3]
    simp only [exU2, exIdR]
    norm_num [hU2sq]
  · have habs2 : |(-2 / Real.sqrt 2 : ℝ)| = 2 / Real.sqrt 2 := by
      rw [abs_of_nonpos (div_nonpos_iff.mpr (Or.inr ⟨by norm_num, Real.sqrt_nonneg 2⟩))]
      ring
    simp only [chol_up, List.range_succ, List.range_zero, List.nil_append,
      List.cons_append, List.foldl_nil, List.foldl_cons, cholUpColumn,
      applyStored, downdatePivot, exU2, updf]
    norm_num [updf, hexR1, exIdR, habs2, h14, h1]
  · have habs2 : |(-2 / Real.sqrt 2 : ℝ)| = 2 / Real.sqrt 2 := by
      rw [abs_of_nonpos (div_nonpos_iff.mpr (Or.inr ⟨by norm_num, Real.sqrt_nonneg 2⟩))]
      ring
    simp only [ggm_accept_edge_move, cholesky_update_after_edge, cholesky_update,
      cholesky_downdate, chol_up, List.range_succ, List.range_zero,
      List.nil_append, List.cons_append, List.foldl_nil, List.foldl_cons,
      cholUpColumn, applyStored, downdatePivot, hypote, exGGM, exIdR, updf]
    norm_num [updf, exIdR, habs2, h14, h1]
  · show (if (1:ℕ) = 1 ∧ (1:ℕ) = 1 then (-1:ℝ)
      else if ((1:ℕ) = 0 ∧ (1:ℕ) = 1) ∨ ((1:ℕ) = 1 ∧ (1:ℕ) = 0) then 0
      else exGGM.precision 1 1) = -1
    norm_num


/-- Witness for the amended C1 statement: the concrete downdate of the
identity factor by (0,1) fails, the sentinel −2.0 is written at flat
index 1, and the edge-move caller keeps the proposal in the precision
matrix. -/
theorem cholesky_downdate_failure_ignored_witness :
    1 < 2 ∧ (chol_up exIdR exFailU 2 false (1e-12)).2 = false ∧
    (chol_up exIdR exFailU 2 false (1e-12)).1 1 = -2 ∧
    (ggm_accept_edge_move 2 exGGM 0 1 0 (-1)).precision 1 1 = -1 := by
  have h := cholesky_downdate_failure_ignored exIdR exFailU 2 (1e-12)
    one_lt_two exFail_eval
  exact ⟨one_lt_two, exFail_eval, h.1, (h.2 2 exGGM 0 1 0 (-1) (by norm_num)).1⟩
